import Mathlib

/-!
Verification of `busca_sem_com_informacao.py`: an uninformed search engine
(breadth-first / depth-first) instantiated on a 3×3 "magic square" sliding
puzzle.  The Python engine is duck-typed over any state class providing
`objetivo`, `acoes` and `str`; we embed that interface as `Dominio` and the
concrete puzzle as `QuebraCabeca`.
-/

/-- The state capability contract consumed by the engine (`nodo.objetivo`,
`nodo.acoes`, `str(estado)`).  `acoes` returns `(movimento(), acao)` pairs:
the Python list holds thunks, which the engine immediately forces with
`movimento()`, so we store the resulting state directly. -/
structure Dominio (σ : Type) where
  objetivo : σ → Bool
  acoes : σ → List (σ × String)
  chave : σ → String

/-- Python `Nodo(estado, pai=None, acao=None)`; `acao=None` is replaced by the
sentinel `"Z"` in `__init__`. -/
inductive Nodo (σ : Type) where
  | mk (estado : σ) (pai : Option (Nodo σ)) (acao : String)

def Nodo.estado {σ : Type} : Nodo σ → σ
  | .mk e _ _ => e

def Nodo.pai {σ : Type} : Nodo σ → Option (Nodo σ)
  | .mk _ p _ => p

def Nodo.acao {σ : Type} : Nodo σ → String
  | .mk _ _ a => a

/-- The `while nodo:` loop of `caminho_`, accumulating the node and then its
ancestors in order (node first, root last). -/
def Nodo.subida {σ : Type} : Nodo σ → List (Nodo σ)
  | .mk e none a => [.mk e none a]
  | .mk e (some p) a => .mk e (some p) a :: p.subida

/-- Property `caminho_`: walk the `pai` chain, then `yield from reversed(caminho)`. -/
def Nodo.caminho_ {σ : Type} (n : Nodo σ) : List (Nodo σ) :=
  n.subida.reverse

/-- Depth of a node: number of `pai` links to the root. -/
def Nodo.prof {σ : Type} : Nodo σ → Nat
  | .mk _ none _ => 0
  | .mk _ (some p) _ => p.prof + 1

/-- Lexicographic comparison of character lists, mirroring Python's string
`<` (and definitionally `List.lt`, stated executably). -/
def ltChars : List Char → List Char → Bool
  | [], [] => false
  | [], _ :: _ => true
  | _ :: _, [] => false
  | a :: as, b :: bs => if a < b then true else if b < a then false else ltChars as bs

/-- Executable string comparison used by the sort key `lambda x: x[1]`. -/
def menorStr (a b : String) : Bool :=
  ltChars a.data b.data

/-- Stable insertion (ascending by the second component, the action label),
modelling Python's stable `sorted(..., key=lambda x: x[1])`. -/
def insereAsc {α : Type} (x : α × String) : List (α × String) → List (α × String)
  | [] => [x]
  | y :: ys => if menorStr y.2 x.2 then y :: insereAsc x ys else x :: y :: ys

def ordenaAsc {α : Type} : List (α × String) → List (α × String)
  | [] => []
  | x :: xs => insereAsc x (ordenaAsc xs)

/-- Stable insertion (descending by label), modelling Python's stable
`sorted(..., key=lambda x: x[1], reverse=True)`. -/
def insereDesc {α : Type} (x : α × String) : List (α × String) → List (α × String)
  | [] => [x]
  | y :: ys => if menorStr x.2 y.2 then y :: insereDesc x ys else x :: y :: ys

def ordenaDesc {α : Type} : List (α × String) → List (α × String)
  | [] => []
  | x :: xs => insereDesc x (ordenaDesc xs)

/-- The `for movimento, acao in sorted(...)` body: build `adjacente` for every
pair, keep (and mark explored) only those whose key is unseen.  Returns the
appended children in order together with the grown explored set. -/
def gerarFilhos {σ : Type} (D : Dominio σ) (n : Nodo σ) :
    List (σ × String) → List String → List (Nodo σ) × List String
  | [], ex => ([], ex)
  | (s, a) :: resto, ex =>
    if D.chave s ∈ ex then gerarFilhos D n resto ex
    else
      let r := gerarFilhos D n resto (D.chave s :: ex)
      (Nodo.mk s (some n) a :: r.1, r.2)

/-- Engine outcome: `caminho` is a successful return of `nodo_atual.caminho_`;
`semSolucao` is the implicit `None` when the frontier empties (or when
`tipo_busca` matches neither branch); `semCombustivel` is an artifact of the
fuel-based embedding of the unbounded `while`. -/
inductive Resultado (σ : Type) where
  | semCombustivel
  | semSolucao
  | caminho (c : List (Nodo σ))

def Resultado.eSucesso {σ : Type} : Resultado σ → Bool
  | .caminho _ => true
  | _ => false

/-- One run's observable behaviour: the result plus instrumentation.
`nodosCriados` counts `Nodo(...)` constructor calls, `chavesAdicionadas`
counts `explorado.add(...)` calls, `visitados` lists the popped nodes in
order, `exploradoFinal` is the explored set when the run stops. -/
structure Execucao (σ : Type) where
  resultado : Resultado σ
  nodosCriados : Nat
  chavesAdicionadas : Nat
  visitados : List (Nodo σ)
  exploradoFinal : List String

/-- The `while borda:` loop of the breadth-first branch: pop from the front
(`popleft`), test the goal, expand with actions sorted ascending. -/
def lacoLargura {σ : Type} (D : Dominio σ) :
    Nat → List (Nodo σ) → List String → Execucao σ
  | 0, _, ex => ⟨.semCombustivel, 0, 0, [], ex⟩
  | _ + 1, [], ex => ⟨.semSolucao, 0, 0, [], ex⟩
  | fuel + 1, n :: resto, ex =>
    if D.objetivo n.estado then ⟨.caminho n.caminho_, 0, 0, [n], ex⟩
    else
      let ord := ordenaAsc (D.acoes n.estado)
      let f := gerarFilhos D n ord ex
      let e := lacoLargura D fuel (resto ++ f.1) f.2
      ⟨e.resultado, ord.length + e.nodosCriados, f.1.length + e.chavesAdicionadas,
        n :: e.visitados, e.exploradoFinal⟩

/-- The `while borda:` loop of the depth-first branch: pop from the back
(`pop`), test the goal, expand with actions sorted descending. -/
def lacoProfundidade {σ : Type} (D : Dominio σ) :
    Nat → List (Nodo σ) → List String → Execucao σ
  | 0, _, ex => ⟨.semCombustivel, 0, 0, [], ex⟩
  | _ + 1, [], ex => ⟨.semSolucao, 0, 0, [], ex⟩
  | fuel + 1, b :: bs, ex =>
    let n := (b :: bs).getLast (by simp)
    let resto := (b :: bs).dropLast
    if D.objetivo n.estado then ⟨.caminho n.caminho_, 0, 0, [n], ex⟩
    else
      let ord := ordenaDesc (D.acoes n.estado)
      let f := gerarFilhos D n ord ex
      let e := lacoProfundidade D fuel (resto ++ f.1) f.2
      ⟨e.resultado, ord.length + e.nodosCriados, f.1.length + e.chavesAdicionadas,
        n :: e.visitados, e.exploradoFinal⟩

/-- Method `Busca.buscar(tipo_busca)`: build the root node (action defaulted to the
sentinel `"Z"`), seed the explored set with the start state's key, then run
the branch selected by `tipo_busca`; any other value falls through and
returns `None`. -/
def buscar {σ : Type} (D : Dominio σ) (inicio : σ) (tipo_busca : String)
    (fuel : Nat) : Execucao σ :=
  let raiz : Nodo σ := .mk inicio none "Z"
  let ex0 : List String := [D.chave inicio]
  if tipo_busca = "largura" then
    let e := lacoLargura D fuel [raiz] ex0
    ⟨e.resultado, 1 + e.nodosCriados, 1 + e.chavesAdicionadas, e.visitados,
      e.exploradoFinal⟩
  else if tipo_busca = "profundidade" then
    let e := lacoProfundidade D fuel [raiz] ex0
    ⟨e.resultado, 1 + e.nodosCriados, 1 + e.chavesAdicionadas, e.visitados,
      e.exploradoFinal⟩
  else
    ⟨.semSolucao, 1, 1, [], ex0⟩

/-! ## The concrete puzzle: `QuebraCabeca` -/

/-- Constructor `QuebraCabeca.__init__` always sets `tamanho = 3`. -/
structure QuebraCabeca where
  tamanho : Nat
  tabela : List (List Nat)

def QuebraCabeca.nova (tabela : List (List Nat)) : QuebraCabeca := ⟨3, tabela⟩

/-- Cell access `tabela[i][j]` (all uses in the source are within bounds). -/
def celula (t : List (List Nat)) (i j : Nat) : Nat :=
  (t.getD i []).getD j 0

/-- Property `objetivo`: column sums (`axis=0`), row sums (`axis=1`), both traces each
repeated `tamanho` times, concatenated; solved iff the distinct values
collapse to the single value 15 (`np.unique`; its sorting cannot affect a
length-1 result). -/
def QuebraCabeca.objetivo (q : QuebraCabeca) : Bool :=
  let n := q.tamanho
  let t := q.tabela
  let colunas := (List.range n).map fun j => ((List.range n).map fun i => celula t i j).sum
  let linhas := (List.range n).map fun i => ((List.range n).map fun j => celula t i j).sum
  let tr := ((List.range n).map fun i => celula t i i).sum
  let tr2 := ((List.range n).map fun i => celula t.reverse i i).sum
  let diagonais := List.replicate n tr ++ List.replicate n tr2
  let somas := colunas ++ linhas ++ diagonais
  let x := somas.dedup
  x.length == 1 && x.getD 0 0 == 15

/-- Method `copiar`: a fresh table with per-row copies `[x for x in lin]`. -/
def QuebraCabeca.copiar (q : QuebraCabeca) : QuebraCabeca :=
  ⟨q.tamanho, q.tabela.map fun lin => lin.map fun x => x⟩

/-- Write one cell of a table. -/
def defineCelula (t : List (List Nat)) (i j v : Nat) : List (List Nat) :=
  t.set i ((t.getD i []).set j v)

/-- Method `mover`: copy, then the simultaneous swap
`copia.tabela[i][j], copia.tabela[r][c] = copia.tabela[r][c], copia.tabela[i][j]`
(both right-hand sides read before the two writes). -/
def QuebraCabeca.mover (q : QuebraCabeca) (origem destino : Nat × Nat) : QuebraCabeca :=
  let copia := q.copiar
  let vIJ := celula copia.tabela origem.1 origem.2
  let vRC := celula copia.tabela destino.1 destino.2
  ⟨copia.tamanho,
    defineCelula (defineCelula copia.tabela origem.1 origem.2 vRC) destino.1 destino.2 vIJ⟩

/-- The `direcoes` dict in insertion order; targets as integers since
`i-1`/`j-1` may be negative in Python. -/
def direcoes (i j : Nat) : List (String × Int × Int) :=
  [("1 Cima", ((i : Int) + 1, (j : Int))),
   ("2 Baixo", ((i : Int) - 1, (j : Int))),
   ("3 Esquerda", ((i : Int), (j : Int) + 1)),
   ("4 Direita", ((i : Int), (j : Int) - 1))]

/-- Property `acoes`: for each cell `(i,j)` (row-major `itertools.product`) and each
direction, if the target is in bounds and holds the 9, emit
`(definir_movimento((i,j),(l,c)), acao)`; the engine forces the thunk, so we
store `mover`'s result. -/
def QuebraCabeca.acoes (q : QuebraCabeca) : List (QuebraCabeca × String) :=
  (List.range q.tamanho).flatMap fun i =>
    (List.range q.tamanho).flatMap fun j =>
      (direcoes i j).filterMap fun d =>
        let l := d.2.1
        let c := d.2.2
        if 0 ≤ l ∧ 0 ≤ c ∧ l < (q.tamanho : Int) ∧ c < (q.tamanho : Int) ∧
            celula q.tabela l.toNat c.toNat = 9 then
          some (q.mover (i, j) (l.toNat, c.toNat), d.1)
        else none

/-- Key `str(estado)`: `''.join(map(str, self))`, iterating rows then cells. -/
def QuebraCabeca.chave (q : QuebraCabeca) : String :=
  String.join (q.tabela.flatten.map toString)

/-- The engine instantiated on the puzzle (duck typing resolved). -/
def dominioQC : Dominio QuebraCabeca :=
  ⟨QuebraCabeca.objetivo, QuebraCabeca.acoes, QuebraCabeca.chave⟩

/-! ## Heap model of `copiar`/`mover`

The pure functions above cannot express the aliasing question behind claim
C9 (Python mutates `copia.tabela` in place), so we also give a store-passing
model: rows live in a store addressed by allocation order, a puzzle value
holds row ids, `copiar` allocates fresh rows and `mover` writes only to the
copy's rows. -/

structure Loja where
  prox : Nat
  linhas : Nat → List Nat

structure QCRef where
  tamanho : Nat
  idsLinhas : List Nat

/-- Allocate a fresh row holding `v`. -/
def Loja.aloca (L : Loja) (v : List Nat) : Loja × Nat :=
  (⟨L.prox + 1, fun k => if k = L.prox then v else L.linhas k⟩, L.prox)

/-- Overwrite row `id`. -/
def Loja.grava (L : Loja) (id : Nat) (v : List Nat) : Loja :=
  ⟨L.prox, fun k => if k = id then v else L.linhas k⟩

/-- Allocation `[x for x in lin]` for each row, in order: fresh copies of the rows. -/
def alocaLinhas (L : Loja) : List Nat → Loja × List Nat
  | [] => (L, [])
  | id :: resto =>
    let r1 := L.aloca (L.linhas id)
    let r2 := alocaLinhas r1.1 resto
    (r2.1, r1.2 :: r2.2)

/-- Method `copiar` in the heap model. -/
def copiarRef (L : Loja) (q : QCRef) : Loja × QCRef :=
  let r := alocaLinhas L q.idsLinhas
  (r.1, ⟨q.tamanho, r.2⟩)

def leCelulaRef (L : Loja) (q : QCRef) (i j : Nat) : Nat :=
  ((q.idsLinhas.map L.linhas).getD i []).getD j 0

def gravaCelulaRef (L : Loja) (q : QCRef) (i j v : Nat) : Loja :=
  let id := q.idsLinhas.getD i 0
  L.grava id ((L.linhas id).set j v)

/-- Method `mover` in the heap model: copy, read both cells, write both cells of the
copy, return the copy. -/
def moverRef (L : Loja) (q : QCRef) (origem destino : Nat × Nat) : Loja × QCRef :=
  let r := copiarRef L q
  let L1 := r.1
  let copia := r.2
  let vIJ := leCelulaRef L1 copia origem.1 origem.2
  let vRC := leCelulaRef L1 copia destino.1 destino.2
  let L2 := gravaCelulaRef L1 copia origem.1 origem.2 vRC
  let L3 := gravaCelulaRef L2 copia destino.1 destino.2 vIJ
  (L3, copia)

/-! ## Reachability and node validity -/

/-- Relation `AlcEm D inicio s d`: there is a path of exactly `d` actions from
`inicio` to `s` under `D.acoes`. -/
inductive AlcEm {σ : Type} (D : Dominio σ) (inicio : σ) : σ → Nat → Prop where
  | inicial : AlcEm D inicio inicio 0
  | passo {t u : σ} {a : String} {d : Nat} :
      AlcEm D inicio t d → (u, a) ∈ D.acoes t → AlcEm D inicio u (d + 1)

def Alcancavel {σ : Type} (D : Dominio σ) (inicio s : σ) : Prop :=
  ∃ d, AlcEm D inicio s d

/-- Every node the engine ever places on the frontier looks like this: the
root wraps the start with sentinel `"Z"`, and each child was produced from an
expanded (hence non-goal) parent by one of its listed actions. -/
inductive NodoValido {σ : Type} (D : Dominio σ) (inicio : σ) : Nodo σ → Prop where
  | raiz : NodoValido D inicio (.mk inicio none "Z")
  | filho {p : Nodo σ} {s : σ} {a : String} :
      NodoValido D inicio p → D.objetivo p.estado = false →
      (s, a) ∈ D.acoes p.estado → NodoValido D inicio (.mk s (some p) a)

/-! ## Basic lemmas: nodes and paths -/

@[simp] theorem Nodo.estado_mk {σ : Type} (e : σ) (p : Option (Nodo σ)) (a : String) :
    (Nodo.mk e p a).estado = e := rfl

@[simp] theorem Nodo.pai_mk {σ : Type} (e : σ) (p : Option (Nodo σ)) (a : String) :
    (Nodo.mk e p a).pai = p := rfl

@[simp] theorem Nodo.acao_mk {σ : Type} (e : σ) (p : Option (Nodo σ)) (a : String) :
    (Nodo.mk e p a).acao = a := rfl

theorem Nodo.caminho_raiz {σ : Type} (e : σ) (a : String) :
    (Nodo.mk e none a).caminho_ = [Nodo.mk e none a] := rfl

theorem Nodo.caminho_filho {σ : Type} (e : σ) (p : Nodo σ) (a : String) :
    (Nodo.mk e (some p) a).caminho_ = p.caminho_ ++ [Nodo.mk e (some p) a] := by
  simp [Nodo.caminho_, Nodo.subida]

theorem Nodo.caminho_ne_nil {σ : Type} (n : Nodo σ) : n.caminho_ ≠ [] := by
  cases n with
  | mk e p a =>
    cases p with
    | none => simp [Nodo.caminho_raiz]
    | some q => simp [Nodo.caminho_filho]

theorem Nodo.caminho_length {σ : Type} : (n : Nodo σ) → n.caminho_.length = n.prof + 1
  | .mk e none a => by simp [Nodo.caminho_raiz, Nodo.prof]
  | .mk e (some q) a => by
    have ih := Nodo.caminho_length q
    simp [Nodo.caminho_filho, Nodo.prof]
    exact ih

theorem Nodo.caminho_getLast {σ : Type} (n : Nodo σ) :
    n.caminho_.getLast? = some n := by
  cases n with
  | mk e p a =>
    cases p with
    | none => simp [Nodo.caminho_raiz]
    | some q => simp [Nodo.caminho_filho]

/-- The root that `caminho_` starts from: follow `pai` to the end. -/
def Nodo.raizDe {σ : Type} : Nodo σ → Nodo σ
  | .mk e none a => .mk e none a
  | .mk _ (some p) _ => p.raizDe

theorem Nodo.caminho_head {σ : Type} : (n : Nodo σ) → n.caminho_.head? = some n.raizDe
  | .mk e none a => by simp [Nodo.caminho_raiz, Nodo.raizDe]
  | .mk e (some q) a => by
    have ih := Nodo.caminho_head q
    rw [Nodo.caminho_filho, Nodo.raizDe]
    rw [List.head?_append_of_ne_nil]
    · exact ih
    · intro h
      exact Nodo.caminho_ne_nil q h

/-! ## Order lemmas for the comparator -/

theorem ltChars_irrefl (l : List Char) : ltChars l l = false := by
  induction l with
  | nil => rfl
  | cons a as ih => simp [ltChars, ih]

theorem ltChars_asymm {l m : List Char} (h : ltChars l m = true) : ltChars m l = false := by
  induction l generalizing m with
  | nil =>
    cases m with
    | nil => simp [ltChars] at h
    | cons b bs => simp [ltChars]
  | cons a as ih =>
    cases m with
    | nil => simp [ltChars] at h
    | cons b bs =>
      by_cases hab : a < b
      · have hba : ¬ b < a := lt_asymm hab
        simp [ltChars, hab, hba, lt_irrefl] at *
      · by_cases hba : b < a
        · simp [ltChars, hab, hba] at h
        · simp [ltChars, hab, hba] at h ⊢
          exact ih h

theorem ltChars_negTrans {l m k : List Char} (h1 : ltChars l m = false)
    (h2 : ltChars m k = false) : ltChars l k = false := by
  induction l generalizing m k with
  | nil =>
    cases m with
    | nil =>
      cases k with
      | nil => rfl
      | cons c cs => simp [ltChars] at h2
    | cons b bs => simp [ltChars] at h1
  | cons a as ih =>
    cases k with
    | nil => rfl
    | cons c cs =>
      cases m with
      | nil => simp [ltChars] at h2
      | cons b bs =>
        by_cases hab : a < b
        · simp [ltChars, hab] at h1
        · by_cases hba : b < a
          · by_cases hbc : b < c
            · simp [ltChars, hbc] at h2
            · have hca : c < a := lt_of_le_of_lt (not_lt.1 hbc) hba
              have hac : ¬ a < c := lt_asymm hca
              simp [ltChars, hac, hca]
          · have hab' : a = b := le_antisymm (not_lt.1 hba) (not_lt.1 hab)
            subst hab'
            simp [ltChars, lt_irrefl] at h1
            by_cases hac : a < c
            · simp [ltChars, hac] at h2
            · by_cases hca : c < a
              · simp [ltChars, hac, hca]
              · simp [ltChars, hac, hca] at h2 ⊢
                exact ih h1 h2

theorem menorStr_irrefl (a : String) : menorStr a a = false := ltChars_irrefl a.data

theorem menorStr_asymm {a b : String} (h : menorStr a b = true) : menorStr b a = false :=
  ltChars_asymm h

theorem menorStr_negTrans {a b c : String} (h1 : menorStr a b = false)
    (h2 : menorStr b c = false) : menorStr a c = false :=
  ltChars_negTrans h1 h2

/-! ## Sorting lemmas -/

theorem insereAsc_perm {α : Type} (x : α × String) (l : List (α × String)) :
    (insereAsc x l).Perm (x :: l) := by
  induction l with
  | nil => simp [insereAsc]
  | cons y ys ih =>
    by_cases h : menorStr y.2 x.2 = true
    · simp only [insereAsc, h, if_true]
      exact ((ih.cons y).trans (List.Perm.swap x y ys))
    · simp only [insereAsc, Bool.not_eq_true] at h
      simp [insereAsc, h]

theorem ordenaAsc_perm {α : Type} (l : List (α × String)) : (ordenaAsc l).Perm l := by
  induction l with
  | nil => simp [ordenaAsc]
  | cons x xs ih => exact (insereAsc_perm x (ordenaAsc xs)).trans (ih.cons x)

theorem insereDesc_perm {α : Type} (x : α × String) (l : List (α × String)) :
    (insereDesc x l).Perm (x :: l) := by
  induction l with
  | nil => simp [insereDesc]
  | cons y ys ih =>
    by_cases h : menorStr x.2 y.2 = true
    · simp only [insereDesc, h, if_true]
      exact ((ih.cons y).trans (List.Perm.swap x y ys))
    · simp only [insereDesc, Bool.not_eq_true] at h
      simp [insereDesc, h]

theorem ordenaDesc_perm {α : Type} (l : List (α × String)) : (ordenaDesc l).Perm l := by
  induction l with
  | nil => simp [ordenaDesc]
  | cons x xs ih => exact (insereDesc_perm x (ordenaDesc xs)).trans (ih.cons x)

theorem mem_ordenaAsc {α : Type} {p : α × String} {l : List (α × String)} :
    p ∈ ordenaAsc l ↔ p ∈ l := (ordenaAsc_perm l).mem_iff

theorem mem_ordenaDesc {α : Type} {p : α × String} {l : List (α × String)} :
    p ∈ ordenaDesc l ↔ p ∈ l := (ordenaDesc_perm l).mem_iff

theorem length_ordenaAsc {α : Type} (l : List (α × String)) :
    (ordenaAsc l).length = l.length := (ordenaAsc_perm l).length_eq

theorem length_ordenaDesc {α : Type} (l : List (α × String)) :
    (ordenaDesc l).length = l.length := (ordenaDesc_perm l).length_eq

/-- Descending order: no later label is larger, i.e. every earlier label is
not smaller than any later one. -/
theorem pairwise_insereDesc {α : Type} (x : α × String) {l : List (α × String)}
    (h : List.Pairwise (fun p q : α × String => menorStr p.2 q.2 = false) l) :
    List.Pairwise (fun p q : α × String => menorStr p.2 q.2 = false) (insereDesc x l) := by
  induction l with
  | nil => simp [insereDesc]
  | cons y ys ih =>
    rcases List.pairwise_cons.1 h with ⟨hy, hys⟩
    by_cases hxy : menorStr x.2 y.2 = true
    · simp only [insereDesc, hxy, if_true]
      refine List.pairwise_cons.2 ⟨?_, ih hys⟩
      intro z hz
      rcases List.mem_cons.1 ((insereDesc_perm x ys).mem_iff.1 hz) with hz' | hz'
      · subst hz'
        exact menorStr_asymm hxy
      · exact hy z hz'
    · simp only [Bool.not_eq_true] at hxy
      simp only [insereDesc, hxy, Bool.false_eq_true, if_false]
      refine List.pairwise_cons.2 ⟨?_, h⟩
      intro z hz
      rcases List.mem_cons.1 hz with hz' | hz'
      · subst hz'; exact hxy
      · exact menorStr_negTrans hxy (hy z hz')

theorem pairwise_ordenaDesc {α : Type} (l : List (α × String)) :
    List.Pairwise (fun p q : α × String => menorStr p.2 q.2 = false) (ordenaDesc l) := by
  induction l with
  | nil => simp [ordenaDesc]
  | cons x xs ih => exact pairwise_insereDesc x ih

/-- Ascending order: every later label is not smaller than any earlier one. -/
theorem pairwise_insereAsc {α : Type} (x : α × String) {l : List (α × String)}
    (h : List.Pairwise (fun p q : α × String => menorStr q.2 p.2 = false) l) :
    List.Pairwise (fun p q : α × String => menorStr q.2 p.2 = false) (insereAsc x l) := by
  induction l with
  | nil => simp [insereAsc]
  | cons y ys ih =>
    rcases List.pairwise_cons.1 h with ⟨hy, hys⟩
    by_cases hyx : menorStr y.2 x.2 = true
    · simp only [insereAsc, hyx, if_true]
      refine List.pairwise_cons.2 ⟨?_, ih hys⟩
      intro z hz
      rcases List.mem_cons.1 ((insereAsc_perm x ys).mem_iff.1 hz) with hz' | hz'
      · subst hz'
        exact menorStr_asymm hyx
      · exact hy z hz'
    · simp only [Bool.not_eq_true] at hyx
      simp only [insereAsc, hyx, Bool.false_eq_true, if_false]
      refine List.pairwise_cons.2 ⟨?_, h⟩
      intro z hz
      rcases List.mem_cons.1 hz with hz' | hz'
      · subst hz'; exact hyx
      · exact menorStr_negTrans (hy z hz') hyx

theorem pairwise_ordenaAsc {α : Type} (l : List (α × String)) :
    List.Pairwise (fun p q : α × String => menorStr q.2 p.2 = false) (ordenaAsc l) := by
  induction l with
  | nil => simp [ordenaAsc]
  | cons x xs ih => exact pairwise_insereAsc x ih

/-! ## Lemmas about child generation -/

theorem gerarFilhos_ex_shape {σ : Type} (D : Dominio σ) (n : Nodo σ) :
    ∀ (ord : List (σ × String)) (ex : List String),
      (gerarFilhos D n ord ex).2 =
        ((gerarFilhos D n ord ex).1.map fun m => D.chave m.estado).reverse ++ ex := by
  intro ord
  induction ord with
  | nil => intro ex; simp [gerarFilhos]
  | cons p resto ih =>
    intro ex
    obtain ⟨s, a⟩ := p
    by_cases h : D.chave s ∈ ex
    · simp only [gerarFilhos, h, if_true]
      exact ih ex
    · simp only [gerarFilhos, h, if_false]
      rw [ih (D.chave s :: ex)]
      simp

theorem gerarFilhos_ex_length {σ : Type} (D : Dominio σ) (n : Nodo σ)
    (ord : List (σ × String)) (ex : List String) :
    (gerarFilhos D n ord ex).2.length = (gerarFilhos D n ord ex).1.length + ex.length := by
  rw [gerarFilhos_ex_shape]
  simp

theorem gerarFilhos_ex_mono {σ : Type} (D : Dominio σ) (n : Nodo σ)
    (ord : List (σ × String)) (ex : List String) {k : String} (h : k ∈ ex) :
    k ∈ (gerarFilhos D n ord ex).2 := by
  rw [gerarFilhos_ex_shape]
  exact List.mem_append_right _ h

theorem gerarFilhos_mem_ex {σ : Type} (D : Dominio σ) (n : Nodo σ)
    (ord : List (σ × String)) (ex : List String) {k : String} :
    k ∈ (gerarFilhos D n ord ex).2 ↔
      (∃ m ∈ (gerarFilhos D n ord ex).1, D.chave m.estado = k) ∨ k ∈ ex := by
  rw [gerarFilhos_ex_shape]
  simp only [List.mem_append, List.mem_reverse, List.mem_map]

theorem gerarFilhos_novos_shape {σ : Type} (D : Dominio σ) (n : Nodo σ) :
    ∀ (ord : List (σ × String)) (ex : List String),
      ∀ m ∈ (gerarFilhos D n ord ex).1,
        ∃ s a, m = Nodo.mk s (some n) a ∧ (s, a) ∈ ord ∧ D.chave s ∉ ex := by
  intro ord
  induction ord with
  | nil => intro ex m hm; simp [gerarFilhos] at hm
  | cons p resto ih =>
    intro ex m hm
    obtain ⟨s, a⟩ := p
    by_cases h : D.chave s ∈ ex
    · simp only [gerarFilhos, h, if_true] at hm
      obtain ⟨s', a', he, hmem, hnin⟩ := ih ex m hm
      exact ⟨s', a', he, List.mem_cons_of_mem _ hmem, hnin⟩
    · simp only [gerarFilhos, h, if_false, List.mem_cons] at hm
      rcases hm with hm | hm
      · exact ⟨s, a, hm, List.mem_cons_self _ _, h⟩
      · obtain ⟨s', a', he, hmem, hnin⟩ := ih (D.chave s :: ex) m hm
        refine ⟨s', a', he, List.mem_cons_of_mem _ hmem, fun hc => hnin ?_⟩
        exact List.mem_cons_of_mem _ hc

theorem gerarFilhos_completo {σ : Type} (D : Dominio σ) (n : Nodo σ) :
    ∀ (ord : List (σ × String)) (ex : List String),
      ∀ p ∈ ord, D.chave p.1 ∈ (gerarFilhos D n ord ex).2 := by
  intro ord
  induction ord with
  | nil => intro ex p hp; simp at hp
  | cons q resto ih =>
    intro ex p hp
    obtain ⟨s, a⟩ := q
    rcases List.mem_cons.1 hp with hp' | hp'
    · subst hp'
      by_cases h : D.chave s ∈ ex
      · simp only [gerarFilhos, h, if_true]
        exact gerarFilhos_ex_mono D n resto ex h
      · simp only [gerarFilhos, h, if_false]
        exact gerarFilhos_ex_mono D n resto _ (List.mem_cons_self _ _)
    · by_cases h : D.chave s ∈ ex
      · simp only [gerarFilhos, h, if_true]
        exact ih ex p hp'
      · simp only [gerarFilhos, h, if_false]
        exact ih (D.chave s :: ex) p hp'

theorem gerarFilhos_nodup {σ : Type} (D : Dominio σ) (n : Nodo σ) :
    ∀ (ord : List (σ × String)) (ex : List String), ex.Nodup →
      (gerarFilhos D n ord ex).2.Nodup := by
  intro ord
  induction ord with
  | nil => intro ex h; simpa [gerarFilhos] using h
  | cons p resto ih =>
    intro ex h
    obtain ⟨s, a⟩ := p
    by_cases hm : D.chave s ∈ ex
    · simp only [gerarFilhos, hm, if_true]
      exact ih ex h
    · simp only [gerarFilhos, hm, if_false]
      exact ih (D.chave s :: ex) (List.nodup_cons.2 ⟨hm, h⟩)

theorem gerarFilhos_length_le {σ : Type} (D : Dominio σ) (n : Nodo σ) :
    ∀ (ord : List (σ × String)) (ex : List String),
      (gerarFilhos D n ord ex).1.length ≤ ord.length := by
  intro ord
  induction ord with
  | nil => intro ex; simp [gerarFilhos]
  | cons p resto ih =>
    intro ex
    obtain ⟨s, a⟩ := p
    by_cases hm : D.chave s ∈ ex
    · simp only [gerarFilhos, hm, if_true]
      exact Nat.le_succ_of_le (ih ex)
    · simp only [gerarFilhos, hm, if_false, List.length_cons]
      exact Nat.succ_le_succ (ih _)

/-- When the listed actions produce pairwise distinct keys, every action with
an unexplored key really contributes a child (the explored set growing during
the `for` loop cannot shadow it). -/
theorem gerarFilhos_mem_of_new {σ : Type} (D : Dominio σ) (n : Nodo σ) :
    ∀ (ord : List (σ × String)) (ex : List String),
      List.Pairwise (fun p q : σ × String => D.chave p.1 ≠ D.chave q.1) ord →
      ∀ p ∈ ord, D.chave p.1 ∉ ex →
        Nodo.mk p.1 (some n) p.2 ∈ (gerarFilhos D n ord ex).1 := by
  intro ord
  induction ord with
  | nil => intro ex _ p hp; simp at hp
  | cons q resto ih =>
    intro ex hpw p hp hnin
    obtain ⟨hq, hpw'⟩ := List.pairwise_cons.1 hpw
    obtain ⟨s, a⟩ := q
    rcases List.mem_cons.1 hp with hp' | hp'
    · subst hp'
      simp only [gerarFilhos, hnin, if_false, List.mem_cons]
      tauto
    · by_cases hm : D.chave s ∈ ex
      · simp only [gerarFilhos, hm, if_true]
        exact ih ex hpw' p hp' hnin
      · simp only [gerarFilhos, hm, if_false, List.mem_cons]
        refine Or.inr (ih (D.chave s :: ex) hpw' p hp' ?_)
        intro hc
        rcases List.mem_cons.1 hc with hc' | hc'
        · exact hq p hp' hc'.symm
        · exact hnin hc'

theorem gerarFilhos_pairwise {σ : Type} (D : Dominio σ) (n : Nodo σ)
    {R : σ × String → σ × String → Prop} :
    ∀ (ord : List (σ × String)) (ex : List String),
      List.Pairwise R ord →
      List.Pairwise (fun m m' => R (m.estado, m.acao) (m'.estado, m'.acao))
        (gerarFilhos D n ord ex).1 := by
  intro ord
  induction ord with
  | nil => intro ex _; simp [gerarFilhos]
  | cons p resto ih =>
    intro ex hpw
    obtain ⟨hp, hpw'⟩ := List.pairwise_cons.1 hpw
    obtain ⟨s, a⟩ := p
    by_cases hm : D.chave s ∈ ex
    · simp only [gerarFilhos, hm, if_true]
      exact ih ex hpw'
    · simp only [gerarFilhos, hm, if_false]
      refine List.pairwise_cons.2 ⟨?_, ih _ hpw'⟩
      intro m hmem
      obtain ⟨s', a', he, hmem', _⟩ := gerarFilhos_novos_shape D n resto _ m hmem
      subst he
      simpa using hp (s', a') hmem'

/-! ## Loop unfolding and run lemmas -/

/-- One iteration of the depth-first loop on a frontier written as
`resto ++ [n]`: the popped node is `n` (popped from the back). -/
theorem lacoProfundidade_concat {σ : Type} (D : Dominio σ) (fuel : Nat)
    (resto : List (Nodo σ)) (n : Nodo σ) (ex : List String) :
    lacoProfundidade D (fuel + 1) (resto ++ [n]) ex =
      if D.objetivo n.estado then ⟨.caminho n.caminho_, 0, 0, [n], ex⟩
      else
        let ord := ordenaDesc (D.acoes n.estado)
        let f := gerarFilhos D n ord ex
        let e := lacoProfundidade D fuel (resto ++ f.1) f.2
        ⟨e.resultado, ord.length + e.nodosCriados, f.1.length + e.chavesAdicionadas,
          n :: e.visitados, e.exploradoFinal⟩ := by
  cases resto with
  | nil =>
    have hg : ([n] : List (Nodo σ)).getLast (by simp) = n := rfl
    have hd : ([n] : List (Nodo σ)).dropLast = [] := rfl
    simp only [List.nil_append, lacoProfundidade]
    rw [hg, hd]
    simp
  | cons r rs =>
    have hg : ((r :: rs) ++ [n]).getLast (by simp) = n := List.getLast_concat _
    have hd : ((r :: rs) ++ [n]).dropLast = r :: rs := List.dropLast_concat
    simp only [List.cons_append, lacoProfundidade, List.append_eq] at *
    rw [hg, hd]
    rfl

/-- The final explored set has exactly one entry per key added, and stays
duplicate-free (breadth-first loop). -/
theorem lacoLargura_explorado {σ : Type} (D : Dominio σ) :
    ∀ (fuel : Nat) (borda : List (Nodo σ)) (ex : List String),
      (lacoLargura D fuel borda ex).exploradoFinal.length =
          ex.length + (lacoLargura D fuel borda ex).chavesAdicionadas
        ∧ (ex.Nodup → (lacoLargura D fuel borda ex).exploradoFinal.Nodup) := by
  intro fuel
  induction fuel with
  | zero => intro borda ex; simp [lacoLargura]
  | succ fuel ih =>
    intro borda ex
    cases borda with
    | nil => simp [lacoLargura]
    | cons n resto =>
      by_cases h : D.objetivo n.estado
      · simp [lacoLargura, h]
      · simp only [lacoLargura, h, Bool.false_eq_true, if_false]
        obtain ⟨hlen, hnd⟩ := ih (resto ++ (gerarFilhos D n (ordenaAsc (D.acoes n.estado)) ex).1)
          (gerarFilhos D n (ordenaAsc (D.acoes n.estado)) ex).2
        constructor
        · rw [hlen, gerarFilhos_ex_length]
          omega
        · intro hx
          exact hnd (gerarFilhos_nodup D n _ ex hx)

/-- The final explored set has exactly one entry per key added, and stays
duplicate-free (depth-first loop). -/
theorem lacoProfundidade_explorado {σ : Type} (D : Dominio σ) :
    ∀ (fuel : Nat) (borda : List (Nodo σ)) (ex : List String),
      (lacoProfundidade D fuel borda ex).exploradoFinal.length =
          ex.length + (lacoProfundidade D fuel borda ex).chavesAdicionadas
        ∧ (ex.Nodup → (lacoProfundidade D fuel borda ex).exploradoFinal.Nodup) := by
  intro fuel
  induction fuel with
  | zero => intro borda ex; simp [lacoProfundidade]
  | succ fuel ih =>
    intro borda ex
    cases borda with
    | nil => simp [lacoProfundidade]
    | cons b bs =>
      obtain ⟨resto, n, he⟩ : ∃ resto n, b :: bs = resto ++ [n] :=
        ⟨(b :: bs).dropLast, (b :: bs).getLast (by simp),
          (List.dropLast_append_getLast (by simp)).symm⟩
      rw [he, lacoProfundidade_concat]
      by_cases h : D.objetivo n.estado
      · simp [h]
      · simp only [h, Bool.false_eq_true, if_false]
        obtain ⟨hlen, hnd⟩ := ih (resto ++ (gerarFilhos D n (ordenaDesc (D.acoes n.estado)) ex).1)
          (gerarFilhos D n (ordenaDesc (D.acoes n.estado)) ex).2
        constructor
        · rw [hlen, gerarFilhos_ex_length]
          omega
        · intro hx
          exact hnd (gerarFilhos_nodup D n _ ex hx)

/-! ## Validity, success characterization, termination -/

theorem NodoValido.alcEm {σ : Type} {D : Dominio σ} {inicio : σ} {n : Nodo σ}
    (h : NodoValido D inicio n) : AlcEm D inicio n.estado n.prof := by
  induction h with
  | raiz => exact AlcEm.inicial
  | filho hp hobj hmem ih => exact AlcEm.passo ih hmem

theorem NodoValido.alcancavel {σ : Type} {D : Dominio σ} {inicio : σ} {n : Nodo σ}
    (h : NodoValido D inicio n) : Alcancavel D inicio n.estado :=
  ⟨n.prof, h.alcEm⟩

/-- New children of a valid, non-goal node are valid. -/
theorem filhos_validos_asc {σ : Type} {D : Dominio σ} {inicio : σ} {n : Nodo σ}
    (hv : NodoValido D inicio n) (hobj : D.objetivo n.estado = false) (ex : List String) :
    ∀ m ∈ (gerarFilhos D n (ordenaAsc (D.acoes n.estado)) ex).1, NodoValido D inicio m := by
  intro m hm
  obtain ⟨s, a, he, hmem, _⟩ := gerarFilhos_novos_shape D n _ ex m hm
  subst he
  exact NodoValido.filho hv hobj (mem_ordenaAsc.1 hmem)

theorem filhos_validos_desc {σ : Type} {D : Dominio σ} {inicio : σ} {n : Nodo σ}
    (hv : NodoValido D inicio n) (hobj : D.objetivo n.estado = false) (ex : List String) :
    ∀ m ∈ (gerarFilhos D n (ordenaDesc (D.acoes n.estado)) ex).1, NodoValido D inicio m := by
  intro m hm
  obtain ⟨s, a, he, hmem, _⟩ := gerarFilhos_novos_shape D n _ ex m hm
  subst he
  exact NodoValido.filho hv hobj (mem_ordenaDesc.1 hmem)

/-- Any successful breadth-first run returns the path of a valid goal node. -/
theorem lacoLargura_caminho {σ : Type} (D : Dominio σ) (inicio : σ) :
    ∀ (fuel : Nat) (borda : List (Nodo σ)) (ex : List String) (c : List (Nodo σ)),
      (∀ n ∈ borda, NodoValido D inicio n) →
      (lacoLargura D fuel borda ex).resultado = .caminho c →
      ∃ n, NodoValido D inicio n ∧ D.objetivo n.estado = true ∧ c = n.caminho_ := by
  intro fuel
  induction fuel with
  | zero => intro borda ex c _ hr; simp [lacoLargura] at hr
  | succ fuel ih =>
    intro borda ex c hv hr
    cases borda with
    | nil => simp [lacoLargura] at hr
    | cons n resto =>
      by_cases h : D.objetivo n.estado
      · simp only [lacoLargura, h, if_true] at hr
        cases hr
        exact ⟨n, hv n (List.mem_cons_self _ _), h, rfl⟩
      · simp only [lacoLargura, h, Bool.false_eq_true, if_false] at hr
        refine ih _ _ c ?_ hr
        intro m hm
        rcases List.mem_append.1 hm with hm' | hm'
        · exact hv m (List.mem_cons_of_mem _ hm')
        · exact filhos_validos_asc (hv n (List.mem_cons_self _ _)) (by simpa using h) ex m hm'

/-- Any successful depth-first run returns the path of a valid goal node. -/
theorem lacoProfundidade_caminho {σ : Type} (D : Dominio σ) (inicio : σ) :
    ∀ (fuel : Nat) (borda : List (Nodo σ)) (ex : List String) (c : List (Nodo σ)),
      (∀ n ∈ borda, NodoValido D inicio n) →
      (lacoProfundidade D fuel borda ex).resultado = .caminho c →
      ∃ n, NodoValido D inicio n ∧ D.objetivo n.estado = true ∧ c = n.caminho_ := by
  intro fuel
  induction fuel with
  | zero => intro borda ex c _ hr; simp [lacoProfundidade] at hr
  | succ fuel ih =>
    intro borda ex c hv hr
    cases borda with
    | nil => simp [lacoProfundidade] at hr
    | cons b bs =>
      obtain ⟨resto, n, he⟩ : ∃ resto n, b :: bs = resto ++ [n] :=
        ⟨(b :: bs).dropLast, (b :: bs).getLast (by simp),
          (List.dropLast_append_getLast (by simp)).symm⟩
      rw [he] at hr hv
      rw [lacoProfundidade_concat] at hr
      have hvn : NodoValido D inicio n := hv n (List.mem_append_right _ (List.mem_cons_self _ _))
      by_cases h : D.objetivo n.estado
      · simp only [h, if_true] at hr
        cases hr
        exact ⟨n, hvn, h, rfl⟩
      · simp only [h, Bool.false_eq_true, if_false] at hr
        refine ih _ _ c ?_ hr
        intro m hm
        rcases List.mem_append.1 hm with hm' | hm'
        · exact hv m (List.mem_append_left _ hm')
        · exact filhos_validos_desc hvn (by simpa using h) ex m hm'

/-- Fuel bound for the breadth-first loop: one unit per iteration suffices
once the explored set (duplicate-free, inside `universo`) plus frontier are
accounted for. -/
theorem lacoLargura_termina {σ : Type} (D : Dominio σ) (inicio : σ)
    (universo : List String) (hU : ∀ s, Alcancavel D inicio s → D.chave s ∈ universo) :
    ∀ (fuel : Nat) (borda : List (Nodo σ)) (ex : List String),
      (∀ n ∈ borda, NodoValido D inicio n) → ex.Nodup → (∀ k ∈ ex, k ∈ universo) →
      universo.length + borda.length + 1 ≤ ex.length + fuel →
      (lacoLargura D fuel borda ex).resultado ≠ .semCombustivel := by
  intro fuel
  induction fuel with
  | zero =>
    intro borda ex _ hnd hsub harit
    have hle : ex.length ≤ universo.length :=
      List.Subperm.length_le (List.subperm_of_subset hnd hsub)
    omega
  | succ fuel ih =>
    intro borda ex hv hnd hsub harit
    cases borda with
    | nil => simp [lacoLargura]
    | cons n resto =>
      by_cases h : D.objetivo n.estado
      · simp [lacoLargura, h]
      · simp only [lacoLargura, h, Bool.false_eq_true, if_false]
        have hvn : NodoValido D inicio n := hv n (List.mem_cons_self _ _)
        refine ih _ _ ?_ (gerarFilhos_nodup D n _ ex hnd) ?_ ?_
        · intro m hm
          rcases List.mem_append.1 hm with hm' | hm'
          · exact hv m (List.mem_cons_of_mem _ hm')
          · exact filhos_validos_asc hvn (by simpa using h) ex m hm'
        · intro k hk
          rcases (gerarFilhos_mem_ex D n _ ex).1 hk with ⟨m, hm, hkm⟩ | hk'
          · subst hkm
            exact hU _ (filhos_validos_asc hvn (by simpa using h) ex m hm).alcancavel
          · exact hsub k hk'
        · have h1 := gerarFilhos_ex_length D n (ordenaAsc (D.acoes n.estado)) ex
          simp only [List.length_append, List.length_cons] at harit ⊢
          omega

/-- Fuel bound for the depth-first loop. -/
theorem lacoProfundidade_termina {σ : Type} (D : Dominio σ) (inicio : σ)
    (universo : List String) (hU : ∀ s, Alcancavel D inicio s → D.chave s ∈ universo) :
    ∀ (fuel : Nat) (borda : List (Nodo σ)) (ex : List String),
      (∀ n ∈ borda, NodoValido D inicio n) → ex.Nodup → (∀ k ∈ ex, k ∈ universo) →
      universo.length + borda.length + 1 ≤ ex.length + fuel →
      (lacoProfundidade D fuel borda ex).resultado ≠ .semCombustivel := by
  intro fuel
  induction fuel with
  | zero =>
    intro borda ex _ hnd hsub harit
    have hle : ex.length ≤ universo.length :=
      List.Subperm.length_le (List.subperm_of_subset hnd hsub)
    omega
  | succ fuel ih =>
    intro borda ex hv hnd hsub harit
    cases borda with
    | nil => simp [lacoProfundidade]
    | cons b bs =>
      obtain ⟨resto, n, he⟩ : ∃ resto n, b :: bs = resto ++ [n] :=
        ⟨(b :: bs).dropLast, (b :: bs).getLast (by simp),
          (List.dropLast_append_getLast (by simp)).symm⟩
      rw [he] at hv harit ⊢
      rw [lacoProfundidade_concat]
      have hvn : NodoValido D inicio n := hv n (List.mem_append_right _ (List.mem_cons_self _ _))
      by_cases h : D.objetivo n.estado
      · simp [h]
      · simp only [h, Bool.false_eq_true, if_false]
        refine ih _ _ ?_ (gerarFilhos_nodup D n _ ex hnd) ?_ ?_
        · intro m hm
          rcases List.mem_append.1 hm with hm' | hm'
          · exact hv m (List.mem_append_left _ hm')
          · exact filhos_validos_desc hvn (by simpa using h) ex m hm'
        · intro k hk
          rcases (gerarFilhos_mem_ex D n _ ex).1 hk with ⟨m, hm, hkm⟩ | hk'
          · subst hkm
            exact hU _ (filhos_validos_desc hvn (by simpa using h) ex m hm).alcancavel
          · exact hsub k hk'
        · have h1 := gerarFilhos_ex_length D n (ordenaDesc (D.acoes n.estado)) ex
          simp only [List.length_append, List.length_cons] at harit ⊢
          omega

/-! ## The magic-square goal test (C2) -/

/-- Row `i` sum, written directly from the board. -/
def somaLinha (t : List (List Nat)) (i : Nat) : Nat := (t.getD i []).sum

/-- Column `j` sum, written directly from the board. -/
def somaColuna (t : List (List Nat)) (j : Nat) : Nat :=
  (t.map fun lin => lin.getD j 0).sum

/-- Main-diagonal sum of a 3×3 board. -/
def somaDiagonal (t : List (List Nat)) : Nat :=
  celula t 0 0 + celula t 1 1 + celula t 2 2

/-- Anti-diagonal sum of a 3×3 board. -/
def somaAntidiagonal (t : List (List Nat)) : Nat :=
  celula t 0 2 + celula t 1 1 + celula t 2 0

/-- Numpy `np.unique(l)` collapses to the single value 15 exactly when every entry
of `l` is 15 (for nonempty `l`). -/
theorem dedup_unico (l : List Nat) (hne : l ≠ []) :
    (l.dedup.length = 1 ∧ l.dedup[0]?.getD 0 = 15) ↔ ∀ v ∈ l, v = 15 := by
  constructor
  · rintro ⟨h1, h2⟩ v hv
    obtain ⟨x, hx⟩ := List.length_eq_one.1 h1
    rw [hx] at h2
    have hvd : v ∈ l.dedup := List.mem_dedup.2 hv
    rw [hx] at hvd
    simp at hvd h2
    rw [hvd, h2]
  · intro hall
    have hned : l.dedup ≠ [] := by
      cases l with
      | nil => exact absurd rfl hne
      | cons a as =>
        intro he
        have : a ∈ (a :: as).dedup := List.mem_dedup.2 (List.mem_cons_self _ _)
        rw [he] at this
        simp at this
    cases hd : l.dedup with
    | nil => exact absurd hd hned
    | cons x resto =>
      have hx : x = 15 := hall x (List.mem_dedup.1 (hd ▸ List.mem_cons_self _ _))
      cases resto with
      | nil => simp [hx]
      | cons y resto' =>
        have hy : y = 15 :=
          hall y (List.mem_dedup.1 (hd ▸ List.mem_cons_of_mem _ (List.mem_cons_self _ _)))
        have hnd := List.nodup_dedup l
        rw [hd, hx, hy] at hnd
        simp at hnd

theorem objetivo_sse_somas (a b c d e f g h i : Nat) :
    (QuebraCabeca.nova [[a, b, c], [d, e, f], [g, h, i]]).objetivo = true ↔
      (a + b + c = 15 ∧ d + e + f = 15 ∧ g + h + i = 15 ∧
       a + d + g = 15 ∧ b + e + h = 15 ∧ c + f + i = 15 ∧
       a + e + i = 15 ∧ c + e + g = 15) := by
  simp only [QuebraCabeca.objetivo, QuebraCabeca.nova, celula]
  norm_num [List.range_succ]
  rw [dedup_unico _ (by simp)]
  simp only [List.mem_cons, List.mem_append, List.mem_replicate, List.not_mem_nil]
  constructor
  · intro hall
    have e1 := hall (a + (d + g)) (by simp)
    have e2 := hall (b + (e + h)) (by simp)
    have e3 := hall (c + (f + i)) (by simp)
    have e4 := hall (a + (b + c)) (by simp)
    have e5 := hall (d + (e + f)) (by simp)
    have e6 := hall (g + (h + i)) (by simp)
    have e7 := hall (a + (e + i)) (by simp)
    have e8 := hall (g + (e + c)) (by simp)
    omega
  · intro hc v hv
    rcases hc with ⟨h1, h2, h3, h4, h5, h6, h7, h8⟩
    rcases hv with hv | hv | hv | hv | hv | hv | ⟨-, hv⟩ | ⟨-, hv⟩ <;> omega

/-! ## Heap-model lemmas (C9) -/

theorem alocaLinhas_prox (L : Loja) :
    ∀ ids : List Nat, (alocaLinhas L ids).1.prox = L.prox + ids.length := by
  intro ids
  induction ids generalizing L with
  | nil => simp [alocaLinhas]
  | cons id resto ih =>
    simp only [alocaLinhas, Loja.aloca]
    rw [ih]
    simp only [List.length_cons]
    omega

theorem alocaLinhas_length (L : Loja) :
    ∀ ids : List Nat, (alocaLinhas L ids).2.length = ids.length := by
  intro ids
  induction ids generalizing L with
  | nil => simp [alocaLinhas]
  | cons id resto ih => simp [alocaLinhas, Loja.aloca, ih]

theorem alocaLinhas_preserva (L : Loja) :
    ∀ (ids : List Nat) (k : Nat), k < L.prox →
      (alocaLinhas L ids).1.linhas k = L.linhas k := by
  intro ids
  induction ids generalizing L with
  | nil => intro k _; simp [alocaLinhas]
  | cons id resto ih =>
    intro k hk
    simp only [alocaLinhas]
    rw [ih _ k (by simp [Loja.aloca]; omega)]
    simp only [Loja.aloca]
    have : k ≠ L.prox := by omega
    simp [this]

theorem alocaLinhas_fresco (L : Loja) :
    ∀ ids : List Nat, ∀ nid ∈ (alocaLinhas L ids).2, L.prox ≤ nid := by
  intro ids
  induction ids generalizing L with
  | nil => intro nid h; simp [alocaLinhas] at h
  | cons id resto ih =>
    intro nid h
    simp only [alocaLinhas, List.mem_cons] at h
    rcases h with h | h
    · subst h; simp [Loja.aloca]
    · have := ih (L.aloca (L.linhas id)).1 nid h
      simp only [Loja.aloca] at this
      omega

theorem grava_preserva (L : Loja) (id : Nat) (v : List Nat) {k : Nat} (h : k ≠ id) :
    (L.grava id v).linhas k = L.linhas k := by
  simp [Loja.grava, h]

/-- C9: `mover` returns a newly constructed state (all of its rows are fresh
allocations, none aliased with the source) and leaves every cell of the
source state's `tabela` unchanged. -/
theorem C9_mover_preserva_origem (L : Loja) (q : QCRef) (origem destino : Nat × Nat)
    (hids : ∀ id ∈ q.idsLinhas, id < L.prox)
    (ho : origem.1 < q.idsLinhas.length) (hd : destino.1 < q.idsLinhas.length) :
    (∀ id ∈ q.idsLinhas, (moverRef L q origem destino).1.linhas id = L.linhas id)
    ∧ (∀ i j, leCelulaRef (moverRef L q origem destino).1 q i j = leCelulaRef L q i j)
    ∧ (∀ nid ∈ (moverRef L q origem destino).2.idsLinhas, nid ∉ q.idsLinhas) := by
  have hlen : (alocaLinhas L q.idsLinhas).2.length = q.idsLinhas.length :=
    alocaLinhas_length L _
  have hw1mem : (alocaLinhas L q.idsLinhas).2.getD origem.1 0 ∈ (alocaLinhas L q.idsLinhas).2 := by
    rw [List.getD_eq_getElem _ 0 (by omega)]
    exact List.getElem_mem _
  have hw2mem : (alocaLinhas L q.idsLinhas).2.getD destino.1 0 ∈ (alocaLinhas L q.idsLinhas).2 := by
    rw [List.getD_eq_getElem _ 0 (by omega)]
    exact List.getElem_mem _
  have hw1 : L.prox ≤ (alocaLinhas L q.idsLinhas).2.getD origem.1 0 :=
    alocaLinhas_fresco L _ _ hw1mem
  have hw2 : L.prox ≤ (alocaLinhas L q.idsLinhas).2.getD destino.1 0 :=
    alocaLinhas_fresco L _ _ hw2mem
  have parte1 : ∀ id ∈ q.idsLinhas, (moverRef L q origem destino).1.linhas id = L.linhas id := by
    intro id hidm
    have hlt := hids id hidm
    simp only [moverRef, copiarRef, gravaCelulaRef]
    rw [grava_preserva _ _ _ (by omega)]
    rw [grava_preserva _ _ _ (by omega)]
    exact alocaLinhas_preserva L _ id hlt
  refine ⟨parte1, ?_, ?_⟩
  · intro i j
    have hmap : q.idsLinhas.map (moverRef L q origem destino).1.linhas
        = q.idsLinhas.map L.linhas :=
      List.map_congr_left fun a ha => parte1 a ha
    simp only [leCelulaRef, hmap]
  · intro nid hm hq
    have h1 : L.prox ≤ nid := by
      have : nid ∈ (alocaLinhas L q.idsLinhas).2 := by
        simpa [moverRef, copiarRef] using hm
      exact alocaLinhas_fresco L _ _ this
    have h2 := hids nid hq
    omega

/-- C2: for every 3×3 board, `QuebraCabeca.objetivo` returns `true` iff all
three row sums, all three column sums and both diagonal sums equal 15. -/
theorem C2_objetivo_sse_magico (t : List (List Nat)) (h3 : t.length = 3)
    (hr : ∀ r ∈ t, r.length = 3) :
    (QuebraCabeca.nova t).objetivo = true ↔
      (somaLinha t 0 = 15 ∧ somaLinha t 1 = 15 ∧ somaLinha t 2 = 15 ∧
       somaColuna t 0 = 15 ∧ somaColuna t 1 = 15 ∧ somaColuna t 2 = 15 ∧
       somaDiagonal t = 15 ∧ somaAntidiagonal t = 15) := by
  obtain ⟨r0, r1, r2, ht⟩ := List.length_eq_three.1 h3
  subst ht
  obtain ⟨a, b, c, h0⟩ := List.length_eq_three.1 (hr r0 (by simp))
  obtain ⟨d, e, f, h1⟩ := List.length_eq_three.1 (hr r1 (by simp))
  obtain ⟨g, h, i, h2⟩ := List.length_eq_three.1 (hr r2 (by simp))
  subst h0; subst h1; subst h2
  rw [objetivo_sse_somas]
  simp only [somaLinha, somaColuna, somaDiagonal, somaAntidiagonal, celula, List.getD,
    List.map_cons, List.map_nil, List.sum_cons, List.sum_nil]
  norm_num
  omega

/-- C2 witness: the magic square `[[2,7,6],[9,5,1],[4,3,8]]` satisfies both
sides of the equivalence. -/
theorem C2_testemunha :
    (QuebraCabeca.nova [[2, 7, 6], [9, 5, 1], [4, 3, 8]]).objetivo = true ↔
      (somaLinha [[2, 7, 6], [9, 5, 1], [4, 3, 8]] 0 = 15 ∧
       somaLinha [[2, 7, 6], [9, 5, 1], [4, 3, 8]] 1 = 15 ∧
       somaLinha [[2, 7, 6], [9, 5, 1], [4, 3, 8]] 2 = 15 ∧
       somaColuna [[2, 7, 6], [9, 5, 1], [4, 3, 8]] 0 = 15 ∧
       somaColuna [[2, 7, 6], [9, 5, 1], [4, 3, 8]] 1 = 15 ∧
       somaColuna [[2, 7, 6], [9, 5, 1], [4, 3, 8]] 2 = 15 ∧
       somaDiagonal [[2, 7, 6], [9, 5, 1], [4, 3, 8]] = 15 ∧
       somaAntidiagonal [[2, 7, 6], [9, 5, 1], [4, 3, 8]] = 15) :=
  C2_objetivo_sse_magico _ (by decide) (by decide)

/-- C6: `caminho_` of a parentless node is the one-element sequence holding
the node itself; `caminho_` of a child is the parent's path extended by the
child (so the sequence runs from the root, `caminho_`'s head, to the node
itself, its last element). -/
theorem C6_caminho_caracterizacao {σ : Type} (e : σ) (a : String) (p n : Nodo σ) :
    (Nodo.mk e none a).caminho_ = [Nodo.mk e none a]
    ∧ (Nodo.mk e (some p) a).caminho_ = p.caminho_ ++ [Nodo.mk e (some p) a]
    ∧ n.caminho_.getLast? = some n
    ∧ n.caminho_.head? = some n.raizDe :=
  ⟨Nodo.caminho_raiz e a, Nodo.caminho_filho e p a, Nodo.caminho_getLast n,
    Nodo.caminho_head n⟩

/-- C10: any `tipo_busca` other than `"largura"`/`"profundidade"` falls
through both branches: the run returns `None` having constructed only the
root node, added only the start key, and popped nothing. -/
theorem C10_tipo_invalido {σ : Type} (D : Dominio σ) (inicio : σ) (tipo : String)
    (fuel : Nat) (h1 : tipo ≠ "largura") (h2 : tipo ≠ "profundidade") :
    buscar D inicio tipo fuel =
      ⟨.semSolucao, 1, 1, [], [D.chave inicio]⟩ := by
  simp [buscar, h1, h2]

/-- C10 witness: a concrete invalid mode string on the concrete puzzle. -/
theorem C10_testemunha :
    buscar dominioQC (QuebraCabeca.nova [[6, 9, 8], [7, 1, 3], [2, 5, 4]]) "dfs" 100 =
      ⟨.semSolucao, 1, 1, [],
        [dominioQC.chave (QuebraCabeca.nova [[6, 9, 8], [7, 1, 3], [2, 5, 4]])]⟩ :=
  C10_tipo_invalido dominioQC _ "dfs" 100 (by decide) (by decide)

/-- C9 witness: a concrete three-row store; moving the 9 at `(1,0)` to
`(1,1)` leaves the source rows untouched and yields only fresh rows. -/
theorem C9_testemunha :
    (∀ id ∈ ([0, 1, 2] : List Nat),
        (moverRef ⟨3, fun k => [[2, 7, 6], [9, 5, 1], [4, 3, 8], []].getD k []⟩
            ⟨3, [0, 1, 2]⟩ (1, 0) (1, 1)).1.linhas id =
          (⟨3, fun k => [[2, 7, 6], [9, 5, 1], [4, 3, 8], []].getD k []⟩ : Loja).linhas id)
    ∧ (∀ i j, leCelulaRef (moverRef ⟨3, fun k => [[2, 7, 6], [9, 5, 1], [4, 3, 8], []].getD k []⟩
            ⟨3, [0, 1, 2]⟩ (1, 0) (1, 1)).1 ⟨3, [0, 1, 2]⟩ i j =
          leCelulaRef ⟨3, fun k => [[2, 7, 6], [9, 5, 1], [4, 3, 8], []].getD k []⟩
            ⟨3, [0, 1, 2]⟩ i j)
    ∧ (∀ nid ∈ (moverRef ⟨3, fun k => [[2, 7, 6], [9, 5, 1], [4, 3, 8], []].getD k []⟩
            ⟨3, [0, 1, 2]⟩ (1, 0) (1, 1)).2.idsLinhas, nid ∉ ([0, 1, 2] : List Nat)) :=
  C9_mover_preserva_origem _ ⟨3, [0, 1, 2]⟩ (1, 0) (1, 1) (by decide) (by decide) (by decide)

/-! ## Path validity (C4) -/

/-- A non-nil list ending in its `getLast?` value splits off its last element. -/
theorem lista_decompoe_ultimo {α : Type} {l : List α} {x : α} (h : l.getLast? = some x) :
    l = l.dropLast ++ [x] := by
  have hne : l ≠ [] := by
    intro he; rw [he] at h; simp at h
  rw [List.getLast?_eq_getLast l hne] at h
  have := List.dropLast_append_getLast hne
  rw [Option.some_inj.1 h] at this
  exact this.symm

/-- Every valid node's reconstructed path starts at the sentinel root, links
consecutive nodes by a listed action, and is goal-free before its endpoint. -/
theorem caminho_valido_props {σ : Type} {D : Dominio σ} {inicio : σ} {n : Nodo σ}
    (hv : NodoValido D inicio n) :
    List.Chain' (fun a b : Nodo σ =>
        b.pai = some a ∧ (b.estado, b.acao) ∈ D.acoes a.estado) n.caminho_
    ∧ (∀ m ∈ n.caminho_.dropLast, D.objetivo m.estado = false)
    ∧ n.caminho_.head? = some (Nodo.mk inicio none "Z") := by
  induction hv with
  | raiz =>
    refine ⟨?_, ?_, ?_⟩
    · simp [Nodo.caminho_raiz]
    · simp [Nodo.caminho_raiz]
    · simp [Nodo.caminho_raiz]
  | filho hp hobj hmem ih =>
    rename_i p s a
    obtain ⟨ihc, ihd, ihh⟩ := ih
    refine ⟨?_, ?_, ?_⟩
    · rw [Nodo.caminho_filho]
      rw [List.chain'_append]
      refine ⟨ihc, List.chain'_singleton _, ?_⟩
      intro x hx y hy
      rw [Nodo.caminho_getLast] at hx
      simp at hx hy
      subst hx; subst hy
      exact ⟨rfl, hmem⟩
    · rw [Nodo.caminho_filho]
      rw [List.dropLast_concat]
      intro m hm
      have hdec := lista_decompoe_ultimo (Nodo.caminho_getLast p)
      rw [hdec] at hm
      rcases List.mem_append.1 hm with hm' | hm'
      · exact ihd m hm'
      · simp at hm'
        subst hm'
        exact hobj
    · rw [Nodo.caminho_filho]
      rw [List.head?_append_of_ne_nil _ (Nodo.caminho_ne_nil p)]
      exact ihh

/-- C4: any path returned by `buscar` (either mode) starts with the sentinel
root node, follows one listed action per step, and its last node is the only
one satisfying the goal predicate. -/
theorem C4_caminho_retornado {σ : Type} (D : Dominio σ) (inicio : σ) (tipo : String)
    (fuel : Nat) (c : List (Nodo σ))
    (h : (buscar D inicio tipo fuel).resultado = .caminho c) :
    c.head? = some (Nodo.mk inicio none "Z")
    ∧ List.Chain' (fun a b : Nodo σ =>
        b.pai = some a ∧ (b.estado, b.acao) ∈ D.acoes a.estado) c
    ∧ (∀ m ∈ c.dropLast, D.objetivo m.estado = false)
    ∧ (∃ g, c.getLast? = some g ∧ D.objetivo g.estado = true) := by
  have hvraiz : ∀ m ∈ ([Nodo.mk inicio none "Z"] : List (Nodo σ)), NodoValido D inicio m := by
    intro m hm
    simp at hm
    subst hm
    exact NodoValido.raiz
  by_cases h1 : tipo = "largura"
  · simp only [buscar, h1, if_true] at h
    obtain ⟨n, hv, hobj, hc⟩ := lacoLargura_caminho D inicio fuel _ _ c hvraiz h
    subst hc
    obtain ⟨hch, hdl, hhd⟩ := caminho_valido_props hv
    exact ⟨hhd, hch, hdl, n, Nodo.caminho_getLast n, hobj⟩
  · by_cases h2 : tipo = "profundidade"
    · simp only [buscar, h1, h2, if_false, if_true] at h
      obtain ⟨n, hv, hobj, hc⟩ := lacoProfundidade_caminho D inicio fuel _ _ c hvraiz h
      subst hc
      obtain ⟨hch, hdl, hhd⟩ := caminho_valido_props hv
      exact ⟨hhd, hch, hdl, n, Nodo.caminho_getLast n, hobj⟩
    · simp [buscar, h1, h2] at h

/-- The concrete start board used in tests below: one move away from the
magic square (swap the 9 at `(1,1)` with the 5 at `(1,0)`). -/
def qcQuase : QuebraCabeca := QuebraCabeca.nova [[2, 7, 6], [5, 9, 1], [4, 3, 8]]

def nodoRaizQuase : Nodo QuebraCabeca := Nodo.mk qcQuase none "Z"

def nodoMetaQuase : Nodo QuebraCabeca :=
  Nodo.mk (QuebraCabeca.mk 3 [[2, 7, 6], [9, 5, 1], [4, 3, 8]]) (some nodoRaizQuase) "3 Esquerda"

/-- C4 witness: the breadth-first run from `qcQuase` returns the two-node
path root-then-goal, which satisfies all four clauses. -/
theorem C4_testemunha :
    ([nodoRaizQuase, nodoMetaQuase] : List (Nodo QuebraCabeca)).head? =
        some (Nodo.mk qcQuase none "Z")
    ∧ List.Chain' (fun a b : Nodo QuebraCabeca =>
        b.pai = some a ∧ (b.estado, b.acao) ∈ dominioQC.acoes a.estado)
        [nodoRaizQuase, nodoMetaQuase]
    ∧ (∀ m ∈ ([nodoRaizQuase, nodoMetaQuase] : List (Nodo QuebraCabeca)).dropLast,
        dominioQC.objetivo m.estado = false)
    ∧ (∃ g, ([nodoRaizQuase, nodoMetaQuase] : List (Nodo QuebraCabeca)).getLast? = some g ∧
        dominioQC.objetivo g.estado = true) :=
  C4_caminho_retornado dominioQC qcQuase "largura" 10 [nodoRaizQuase, nodoMetaQuase] rfl

/-! ## Key / node counting (C3) -/

theorem buscar_eq_largura {σ : Type} (D : Dominio σ) (inicio : σ) (fuel : Nat) :
    buscar D inicio "largura" fuel =
      ⟨(lacoLargura D fuel [Nodo.mk inicio none "Z"] [D.chave inicio]).resultado,
        1 + (lacoLargura D fuel [Nodo.mk inicio none "Z"] [D.chave inicio]).nodosCriados,
        1 + (lacoLargura D fuel [Nodo.mk inicio none "Z"] [D.chave inicio]).chavesAdicionadas,
        (lacoLargura D fuel [Nodo.mk inicio none "Z"] [D.chave inicio]).visitados,
        (lacoLargura D fuel [Nodo.mk inicio none "Z"] [D.chave inicio]).exploradoFinal⟩ := by
  simp [buscar]

theorem buscar_eq_profundidade {σ : Type} (D : Dominio σ) (inicio : σ) (fuel : Nat) :
    buscar D inicio "profundidade" fuel =
      ⟨(lacoProfundidade D fuel [Nodo.mk inicio none "Z"] [D.chave inicio]).resultado,
        1 + (lacoProfundidade D fuel [Nodo.mk inicio none "Z"] [D.chave inicio]).nodosCriados,
        1 + (lacoProfundidade D fuel [Nodo.mk inicio none "Z"] [D.chave inicio]).chavesAdicionadas,
        (lacoProfundidade D fuel [Nodo.mk inicio none "Z"] [D.chave inicio]).visitados,
        (lacoProfundidade D fuel [Nodo.mk inicio none "Z"] [D.chave inicio]).exploradoFinal⟩ := by
  simp [buscar]

theorem lacoLargura_chaves_le {σ : Type} (D : Dominio σ) :
    ∀ (fuel : Nat) (borda : List (Nodo σ)) (ex : List String),
      (lacoLargura D fuel borda ex).chavesAdicionadas ≤
        (lacoLargura D fuel borda ex).nodosCriados := by
  intro fuel
  induction fuel with
  | zero => intro borda ex; simp [lacoLargura]
  | succ fuel ih =>
    intro borda ex
    cases borda with
    | nil => simp [lacoLargura]
    | cons n resto =>
      by_cases h : D.objetivo n.estado
      · simp [lacoLargura, h]
      · simp only [lacoLargura, h, Bool.false_eq_true, if_false]
        have h1 := gerarFilhos_length_le D n (ordenaAsc (D.acoes n.estado)) ex
        have h2 := ih (resto ++ (gerarFilhos D n (ordenaAsc (D.acoes n.estado)) ex).1)
          (gerarFilhos D n (ordenaAsc (D.acoes n.estado)) ex).2
        omega

theorem lacoProfundidade_chaves_le {σ : Type} (D : Dominio σ) :
    ∀ (fuel : Nat) (borda : List (Nodo σ)) (ex : List String),
      (lacoProfundidade D fuel borda ex).chavesAdicionadas ≤
        (lacoProfundidade D fuel borda ex).nodosCriados := by
  intro fuel
  induction fuel with
  | zero => intro borda ex; simp [lacoProfundidade]
  | succ fuel ih =>
    intro borda ex
    cases borda with
    | nil => simp [lacoProfundidade]
    | cons b bs =>
      obtain ⟨resto, n, he⟩ : ∃ resto n, b :: bs = resto ++ [n] :=
        ⟨(b :: bs).dropLast, (b :: bs).getLast (by simp),
          (List.dropLast_append_getLast (by simp)).symm⟩
      rw [he, lacoProfundidade_concat]
      by_cases h : D.objetivo n.estado
      · simp [h]
      · simp only [h, Bool.false_eq_true, if_false]
        have h1 := gerarFilhos_length_le D n (ordenaDesc (D.acoes n.estado)) ex
        have h2 := ih (resto ++ (gerarFilhos D n (ordenaDesc (D.acoes n.estado)) ex).1)
          (gerarFilhos D n (ordenaDesc (D.acoes n.estado)) ex).2
        omega

/-- C3 (amended): in every run the number of keys added to the explored set
is at most the number of `Nodo` objects constructed — a node is built for
every generated child, even one whose already-explored key keeps it off the
frontier, so equality can fail. -/
theorem C3_chaves_no_maximo_nodos {σ : Type} (D : Dominio σ) (inicio : σ)
    (tipo : String) (fuel : Nat) :
    (buscar D inicio tipo fuel).chavesAdicionadas ≤
      (buscar D inicio tipo fuel).nodosCriados := by
  by_cases h1 : tipo = "largura"
  · simp only [buscar, h1, if_true]
    have := lacoLargura_chaves_le D fuel [Nodo.mk inicio none "Z"] [D.chave inicio]
    omega
  · by_cases h2 : tipo = "profundidade"
    · rw [h2, buscar_eq_profundidade]
      dsimp only
      have := lacoProfundidade_chaves_le D fuel [Nodo.mk inicio none "Z"] [D.chave inicio]
      omega
    · simp [buscar, h1, h2]

/-- C3 counterexample: a complete breadth-first run (it succeeds well within
its fuel) on the program's own puzzle domain constructs 11 nodes but adds
only 9 keys: re-generated, already-explored states get a `Nodo` but no key. -/
theorem C3_contraexemplo :
    (buscar dominioQC qcQuase "largura" 10).resultado.eSucesso = true
    ∧ (buscar dominioQC qcQuase "largura" 10).nodosCriados = 11
    ∧ (buscar dominioQC qcQuase "largura" 10).chavesAdicionadas = 9
    ∧ ¬((buscar dominioQC qcQuase "largura" 10).chavesAdicionadas =
        (buscar dominioQC qcQuase "largura" 10).nodosCriados) :=
  ⟨by decide, by decide, by decide, by decide⟩

/-! ## Termination and the unreachable case (C7, C8) -/

/-- C7: when every reachable state's key lies in a finite list `universo`
(true for the puzzle: keys of permutations of a fixed multiset), the search
terminates in both modes with fuel `universo.length + 1`; moreover the
explored set stays duplicate-free and has grown by exactly one entry per
added key. -/
theorem C7_terminacao {σ : Type} (D : Dominio σ) (inicio : σ) (universo : List String)
    (hU : ∀ s, Alcancavel D inicio s → D.chave s ∈ universo)
    (tipo : String) (htipo : tipo = "largura" ∨ tipo = "profundidade")
    (fuel : Nat) (hfuel : universo.length + 1 ≤ fuel) :
    (buscar D inicio tipo fuel).resultado ≠ .semCombustivel
    ∧ (buscar D inicio tipo fuel).exploradoFinal.Nodup
    ∧ (buscar D inicio tipo fuel).exploradoFinal.length =
        (buscar D inicio tipo fuel).chavesAdicionadas := by
  have hvraiz : ∀ m ∈ ([Nodo.mk inicio none "Z"] : List (Nodo σ)), NodoValido D inicio m := by
    intro m hm
    simp at hm
    subst hm
    exact NodoValido.raiz
  have hnd : ([D.chave inicio] : List String).Nodup := by simp
  have hsub : ∀ k ∈ ([D.chave inicio] : List String), k ∈ universo := by
    intro k hk
    simp at hk
    subst hk
    exact hU inicio ⟨0, AlcEm.inicial⟩
  rcases htipo with h1 | h1
  · simp only [buscar, h1, if_true]
    obtain ⟨hlen, hnodup⟩ := lacoLargura_explorado D fuel [Nodo.mk inicio none "Z"] [D.chave inicio]
    refine ⟨?_, hnodup hnd, ?_⟩
    · exact lacoLargura_termina D inicio universo hU fuel _ _ hvraiz hnd hsub
        (by simp; omega)
    · simp at hlen
      omega
  · rw [h1, buscar_eq_profundidade]
    dsimp only
    obtain ⟨hlen, hnodup⟩ :=
      lacoProfundidade_explorado D fuel [Nodo.mk inicio none "Z"] [D.chave inicio]
    refine ⟨?_, hnodup hnd, ?_⟩
    · exact lacoProfundidade_termina D inicio universo hU fuel _ _ hvraiz hnd hsub
        (by simp; omega)
    · simp at hlen
      omega

/-- A tiny three-state line domain `0 → 1 → 2` with goal `2`, used to
instantiate the engine-level theorems on a concrete finite state space. -/
def domLinha : Dominio (Fin 3) where
  objetivo := fun s => s == 2
  acoes := fun s =>
    if s = 0 then [((1 : Fin 3), "a")] else if s = 1 then [((2 : Fin 3), "a")] else []
  chave := fun s => toString s.val

/-- C7 witness: on the line domain with `universo = ["0","1","2"]` and fuel 4
the breadth-first run does not exhaust its fuel. -/
theorem C7_testemunha :
    (buscar domLinha 0 "largura" 4).resultado ≠ .semCombustivel
    ∧ (buscar domLinha 0 "largura" 4).exploradoFinal.Nodup
    ∧ (buscar domLinha 0 "largura" 4).exploradoFinal.length =
        (buscar domLinha 0 "largura" 4).chavesAdicionadas :=
  C7_terminacao domLinha 0 ["0", "1", "2"]
    (fun s _ => (by decide : ∀ t : Fin 3, domLinha.chave t ∈ ["0", "1", "2"]) s)
    "largura" (Or.inl rfl) 4 (by decide)

/-- C8: if no reachable state satisfies the goal predicate (and reachable
keys fit in a finite `universo`), `buscar` exhausts the frontier and returns
the normal `None` in either mode — never a fault, never a path. -/
theorem C8_frente_esgotada {σ : Type} (D : Dominio σ) (inicio : σ) (universo : List String)
    (hU : ∀ s, Alcancavel D inicio s → D.chave s ∈ universo)
    (hng : ∀ s, Alcancavel D inicio s → D.objetivo s = false)
    (tipo : String) (htipo : tipo = "largura" ∨ tipo = "profundidade")
    (fuel : Nat) (hfuel : universo.length + 1 ≤ fuel) :
    (buscar D inicio tipo fuel).resultado = .semSolucao := by
  have hvraiz : ∀ m ∈ ([Nodo.mk inicio none "Z"] : List (Nodo σ)), NodoValido D inicio m := by
    intro m hm
    simp at hm
    subst hm
    exact NodoValido.raiz
  have hnd : ([D.chave inicio] : List String).Nodup := by simp
  have hsub : ∀ k ∈ ([D.chave inicio] : List String), k ∈ universo := by
    intro k hk
    simp at hk
    subst hk
    exact hU inicio ⟨0, AlcEm.inicial⟩
  rcases htipo with h1 | h1
  · rw [h1, buscar_eq_largura]
    dsimp only
    cases hres : (lacoLargura D fuel [Nodo.mk inicio none "Z"] [D.chave inicio]).resultado with
    | semCombustivel =>
      exact absurd hres
        (lacoLargura_termina D inicio universo hU fuel _ _ hvraiz hnd hsub (by simp; omega))
    | semSolucao => rfl
    | caminho c =>
      exfalso
      obtain ⟨n, hv, hobj, -⟩ := lacoLargura_caminho D inicio fuel _ _ c hvraiz hres
      rw [hng n.estado hv.alcancavel] at hobj
      exact Bool.false_ne_true hobj
  · rw [h1, buscar_eq_profundidade]
    dsimp only
    cases hres : (lacoProfundidade D fuel [Nodo.mk inicio none "Z"] [D.chave inicio]).resultado with
    | semCombustivel =>
      exact absurd hres
        (lacoProfundidade_termina D inicio universo hU fuel _ _ hvraiz hnd hsub (by simp; omega))
    | semSolucao => rfl
    | caminho c =>
      exfalso
      obtain ⟨n, hv, hobj, -⟩ := lacoProfundidade_caminho D inicio fuel _ _ c hvraiz hres
      rw [hng n.estado hv.alcancavel] at hobj
      exact Bool.false_ne_true hobj

/-- A two-state goal-free cycle `0 ↔ 1`: every start makes every goal
unreachable. -/
def domCiclo : Dominio (Fin 2) where
  objetivo := fun _ => false
  acoes := fun s => if s = 0 then [((1 : Fin 2), "a")] else [((0 : Fin 2), "a")]
  chave := fun s => toString s.val

/-- C8 witness: the goal-free cycle exhausts the frontier and returns the
`None` outcome in depth-first mode. -/
theorem C8_testemunha : (buscar domCiclo 0 "profundidade" 3).resultado = .semSolucao :=
  C8_frente_esgotada domCiclo 0 ["0", "1"]
    (fun s _ => (by decide : ∀ t : Fin 2, domCiclo.chave t ∈ ["0", "1"]) s)
    (fun s _ => rfl)
    "profundidade" (Or.inr rfl) 3 (by decide)

/-! ## Depth-first pop ordering (C5) -/

theorem ltChars_antisim : ∀ {l m : List Char},
    ltChars l m = false → ltChars m l = false → l = m := by
  intro l
  induction l with
  | nil =>
    intro m h1 _
    cases m with
    | nil => rfl
    | cons b bs => simp [ltChars] at h1
  | cons a as ih =>
    intro m h1 h2
    cases m with
    | nil => simp [ltChars] at h2
    | cons b bs =>
      by_cases hab : a < b
      · simp [ltChars, hab] at h1
      · by_cases hba : b < a
        · simp [ltChars, hba] at h2
        · have hab' : a = b := le_antisymm (not_lt.1 hba) (not_lt.1 hab)
          subst hab'
          simp only [ltChars, lt_irrefl, if_false] at h1 h2
          rw [ih h1 h2]

theorem menorStr_antisim {a b : String} (h1 : menorStr a b = false)
    (h2 : menorStr b a = false) : a = b := by
  have := ltChars_antisim h1 h2
  cases a; cases b
  exact congrArg String.mk (by simpa using this)

/-- In a pairwise-ordered list every element is the last one or related to it. -/
theorem pairwise_relaciona_ultimo {α : Type} {R : α → α → Prop} {l : List α}
    (h : List.Pairwise R l) (hne : l ≠ []) :
    ∀ x ∈ l, x = l.getLast hne ∨ R x (l.getLast hne) := by
  intro x hx
  have hdec := List.dropLast_append_getLast hne
  rw [← hdec] at hx h
  rcases List.mem_append.1 hx with hx' | hx'
  · exact Or.inr ((List.pairwise_append.1 h).2.2 x hx' _ (List.mem_cons_self _ _))
  · simp at hx'
    exact Or.inl hx'

/-- In a pairwise-ordered list every element is the head or related from it. -/
theorem pairwise_relaciona_cabeca {α : Type} {R : α → α → Prop} {l : List α}
    (h : List.Pairwise R l) (hne : l ≠ []) :
    ∀ x ∈ l, x = l.head hne ∨ R (l.head hne) x := by
  intro x hx
  cases l with
  | nil => exact absurd rfl hne
  | cons a t =>
    rcases List.mem_cons.1 hx with hx' | hx'
    · exact Or.inl hx'
    · exact Or.inr ((List.pairwise_cons.1 h).1 x hx')

/-- Each depth-first iteration records the back-of-frontier node as the next
visited node, goal or not. -/
theorem lacoProfundidade_visitados_cabeca {σ : Type} (D : Dominio σ) (fuel : Nat)
    (resto : List (Nodo σ)) (m : Nodo σ) (ex : List String) :
    ∃ cauda, (lacoProfundidade D (fuel + 1) (resto ++ [m]) ex).visitados = m :: cauda := by
  rw [lacoProfundidade_concat]
  by_cases h : D.objetivo m.estado
  · exact ⟨[], by simp [h]⟩
  · simp only [h, Bool.false_eq_true, if_false]
    exact ⟨_, rfl⟩

/-- C5: in depth-first mode, after expanding a non-goal node whose actions
have pairwise distinct keys and which contributes at least one new child, the
very next node popped is that node's child by the lowest-labelled unexplored
action — and its label agrees with the first child breadth-first mode would
have appended, i.e. the per-branch preference matches breadth-first's. -/
theorem C5_profundidade_pop_preferido {σ : Type} (D : Dominio σ) (fuel : Nat)
    (resto : List (Nodo σ)) (n : Nodo σ) (ex : List String)
    (hobj : D.objetivo n.estado = false)
    (hkeys : List.Pairwise (fun p q : σ × String => D.chave p.1 ≠ D.chave q.1)
      (D.acoes n.estado))
    (hne : (gerarFilhos D n (ordenaDesc (D.acoes n.estado)) ex).1 ≠ []) :
    ∃ m cauda,
      (lacoProfundidade D (fuel + 2) (resto ++ [n]) ex).visitados = n :: m :: cauda
      ∧ m.pai = some n
      ∧ (m.estado, m.acao) ∈ D.acoes n.estado
      ∧ D.chave m.estado ∉ ex
      ∧ (∀ p ∈ D.acoes n.estado, D.chave p.1 ∉ ex → menorStr p.2 m.acao = false)
      ∧ ∀ hb : (gerarFilhos D n (ordenaAsc (D.acoes n.estado)) ex).1 ≠ [],
          ((gerarFilhos D n (ordenaAsc (D.acoes n.estado)) ex).1.head hb).acao = m.acao := by
  have hkeysDesc : List.Pairwise (fun p q : σ × String => D.chave p.1 ≠ D.chave q.1)
      (ordenaDesc (D.acoes n.estado)) :=
    ((ordenaDesc_perm _).pairwise_iff (fun h => h.symm)).2 hkeys
  have hkeysAsc : List.Pairwise (fun p q : σ × String => D.chave p.1 ≠ D.chave q.1)
      (ordenaAsc (D.acoes n.estado)) :=
    ((ordenaAsc_perm _).pairwise_iff (fun h => h.symm)).2 hkeys
  have hmmem : (gerarFilhos D n (ordenaDesc (D.acoes n.estado)) ex).1.getLast hne ∈
      (gerarFilhos D n (ordenaDesc (D.acoes n.estado)) ex).1 := List.getLast_mem hne
  obtain ⟨s, a, hms, hmemord, hninex⟩ := gerarFilhos_novos_shape D n _ ex _ hmmem
  -- the minimality of the popped child's label
  have hdesc := gerarFilhos_pairwise D n (ordenaDesc (D.acoes n.estado)) ex
    (pairwise_ordenaDesc (D.acoes n.estado))
  have hmin : ∀ p ∈ D.acoes n.estado, D.chave p.1 ∉ ex →
      menorStr p.2 ((gerarFilhos D n (ordenaDesc (D.acoes n.estado)) ex).1.getLast hne).acao
        = false := by
    intro p hp hpnin
    have hnodein := gerarFilhos_mem_of_new D n _ ex hkeysDesc p (mem_ordenaDesc.2 hp) hpnin
    rcases pairwise_relaciona_ultimo hdesc hne _ hnodein with heq | hrel
    · have : p.2 = ((gerarFilhos D n (ordenaDesc (D.acoes n.estado)) ex).1.getLast hne).acao := by
        rw [← heq]
        rfl
      rw [this]
      exact menorStr_irrefl _
    · simpa using hrel
  refine ⟨(gerarFilhos D n (ordenaDesc (D.acoes n.estado)) ex).1.getLast hne, ?_⟩
  have hsplit : resto ++ (gerarFilhos D n (ordenaDesc (D.acoes n.estado)) ex).1 =
      (resto ++ (gerarFilhos D n (ordenaDesc (D.acoes n.estado)) ex).1.dropLast) ++
        [(gerarFilhos D n (ordenaDesc (D.acoes n.estado)) ex).1.getLast hne] := by
    rw [List.append_assoc]
    congr 1
    exact (List.dropLast_append_getLast hne).symm
  obtain ⟨cauda, hcauda⟩ := lacoProfundidade_visitados_cabeca D fuel
    (resto ++ (gerarFilhos D n (ordenaDesc (D.acoes n.estado)) ex).1.dropLast)
    ((gerarFilhos D n (ordenaDesc (D.acoes n.estado)) ex).1.getLast hne)
    (gerarFilhos D n (ordenaDesc (D.acoes n.estado)) ex).2
  refine ⟨cauda, ?_, ?_, ?_, ?_, hmin, ?_⟩
  · rw [show fuel + 2 = (fuel + 1) + 1 from rfl, lacoProfundidade_concat]
    simp only [hobj, Bool.false_eq_true, if_false]
    rw [← hsplit] at hcauda
    rw [hcauda]
  · rw [hms]
    rfl
  · rw [hms]
    simpa using mem_ordenaDesc.1 hmemord
  · rw [hms]
    simpa using hninex
  · intro hb
    have hascpw := gerarFilhos_pairwise D n (ordenaAsc (D.acoes n.estado)) ex
      (pairwise_ordenaAsc (D.acoes n.estado))
    have hhead_mem : (gerarFilhos D n (ordenaAsc (D.acoes n.estado)) ex).1.head hb ∈
        (gerarFilhos D n (ordenaAsc (D.acoes n.estado)) ex).1 := List.head_mem hb
    obtain ⟨s', a', hh, hmemord', hninex'⟩ := gerarFilhos_novos_shape D n _ ex _ hhead_mem
    have hii : menorStr ((gerarFilhos D n (ordenaAsc (D.acoes n.estado)) ex).1.head hb).acao
        ((gerarFilhos D n (ordenaDesc (D.acoes n.estado)) ex).1.getLast hne).acao = false := by
      have := hmin (s', a') (by simpa using mem_ordenaAsc.1 hmemord') (by simpa using hninex')
      rw [hh]
      simpa using this
    have hmnodeasc : Nodo.mk s (some n) a ∈
        (gerarFilhos D n (ordenaAsc (D.acoes n.estado)) ex).1 :=
      gerarFilhos_mem_of_new D n _ ex hkeysAsc (s, a)
        (mem_ordenaAsc.2 (by simpa using mem_ordenaDesc.1 hmemord)) (by simpa using hninex)
    have hi : menorStr ((gerarFilhos D n (ordenaDesc (D.acoes n.estado)) ex).1.getLast hne).acao
        ((gerarFilhos D n (ordenaAsc (D.acoes n.estado)) ex).1.head hb).acao = false := by
      rcases pairwise_relaciona_cabeca hascpw hb _ hmnodeasc with heq | hrel
      · rw [hms, ← heq]
        exact menorStr_irrefl _
      · rw [hms]
        simpa using hrel
    exact menorStr_antisim hii hi

/-- C5 witness: expanding the root of `qcQuase` in depth-first mode pops, as
the very next node, its lowest-labelled new child — matching breadth-first's
first appended child. -/
theorem C5_testemunha :
    ∃ m cauda,
      (lacoProfundidade dominioQC (0 + 2) ([] ++ [nodoRaizQuase])
          [dominioQC.chave qcQuase]).visitados = nodoRaizQuase :: m :: cauda
      ∧ m.pai = some nodoRaizQuase
      ∧ (m.estado, m.acao) ∈ dominioQC.acoes nodoRaizQuase.estado
      ∧ dominioQC.chave m.estado ∉ [dominioQC.chave qcQuase]
      ∧ (∀ p ∈ dominioQC.acoes nodoRaizQuase.estado,
          dominioQC.chave p.1 ∉ [dominioQC.chave qcQuase] → menorStr p.2 m.acao = false)
      ∧ ∀ hb : (gerarFilhos dominioQC nodoRaizQuase
            (ordenaAsc (dominioQC.acoes nodoRaizQuase.estado))
            [dominioQC.chave qcQuase]).1 ≠ [],
          ((gerarFilhos dominioQC nodoRaizQuase
            (ordenaAsc (dominioQC.acoes nodoRaizQuase.estado))
            [dominioQC.chave qcQuase]).1.head hb).acao = m.acao :=
  C5_profundidade_pop_preferido dominioQC 0 [] nodoRaizQuase [dominioQC.chave qcQuase]
    (by decide) (by decide) (List.ne_nil_of_length_pos (by decide))

/-! ## Breadth-first optimality (C1) -/

theorem pairwise_de_todos {α : Type} {R : α → α → Prop} :
    ∀ {l : List α}, (∀ a ∈ l, ∀ b ∈ l, R a b) → List.Pairwise R l := by
  intro l
  induction l with
  | nil => intro _; simp
  | cons x xs ih =>
    intro h
    refine List.pairwise_cons.2 ⟨?_, ?_⟩
    · intro b hb
      exact h x (List.mem_cons_self _ _) b (List.mem_cons_of_mem _ hb)
    · exact ih fun a ha b hb =>
        h a (List.mem_cons_of_mem _ ha) b (List.mem_cons_of_mem _ hb)

/-- The breadth-first loop invariant: frontier nodes are valid, their depths
are non-decreasing with spread at most one, explored keys belong to reachable
states, frontier depths are optimal, explored states are on the frontier or
fully expanded (and then non-goals), and every state strictly closer than the
frontier head is already explored. -/
structure InvariantePorNiveis {σ : Type} (D : Dominio σ) (inicio : σ)
    (borda : List (Nodo σ)) (ex : List String) : Prop where
  valida : ∀ n ∈ borda, NodoValido D inicio n
  pares : List.Pairwise (fun a b : Nodo σ => a.prof ≤ b.prof ∧ b.prof ≤ a.prof + 1) borda
  inicioEx : D.chave inicio ∈ ex
  exAlc : ∀ k ∈ ex, ∃ s, Alcancavel D inicio s ∧ D.chave s = k
  dopt : ∀ n ∈ borda, ∀ d, AlcEm D inicio n.estado d → n.prof ≤ d
  expf : ∀ s, Alcancavel D inicio s → D.chave s ∈ ex →
      (∃ n ∈ borda, n.estado = s) ∨
      (D.objetivo s = false ∧ ∀ p ∈ D.acoes s, D.chave p.1 ∈ ex)
  nivel : ∀ s d, AlcEm D inicio s d → ∀ h : borda ≠ [], d < (borda.head h).prof →
      D.chave s ∈ ex

/-- One non-goal breadth-first expansion preserves the invariant. -/
theorem invariante_passo {σ : Type} {D : Dominio σ} {inicio : σ}
    (hinj : ∀ s t, Alcancavel D inicio s → Alcancavel D inicio t →
      D.chave s = D.chave t → s = t)
    {n : Nodo σ} {resto : List (Nodo σ)} {ex : List String}
    (inv : InvariantePorNiveis D inicio (n :: resto) ex)
    (hobj : D.objetivo n.estado = false) :
    InvariantePorNiveis D inicio
      (resto ++ (gerarFilhos D n (ordenaAsc (D.acoes n.estado)) ex).1)
      (gerarFilhos D n (ordenaAsc (D.acoes n.estado)) ex).2 := by
  have hvn : NodoValido D inicio n := inv.valida n (List.mem_cons_self _ _)
  have hpcab : ∀ b ∈ resto, n.prof ≤ b.prof ∧ b.prof ≤ n.prof + 1 :=
    (List.pairwise_cons.1 inv.pares).1
  have hpresto : List.Pairwise (fun a b : Nodo σ => a.prof ≤ b.prof ∧ b.prof ≤ a.prof + 1)
      resto := (List.pairwise_cons.1 inv.pares).2
  have hprofpai : ∀ m ∈ (gerarFilhos D n (ordenaAsc (D.acoes n.estado)) ex).1,
      m.prof = n.prof + 1 ∧ m.pai = some n ∧ D.chave m.estado ∉ ex := by
    intro m hm
    obtain ⟨s, a, he, _, hnin⟩ := gerarFilhos_novos_shape D n _ ex m hm
    subst he
    exact ⟨rfl, rfl, by simpa using hnin⟩
  have hvnovos := filhos_validos_asc hvn hobj ex
  have hcompleto : ∀ p ∈ D.acoes n.estado,
      D.chave p.1 ∈ (gerarFilhos D n (ordenaAsc (D.acoes n.estado)) ex).2 :=
    fun p hp => gerarFilhos_completo D n _ ex p (mem_ordenaAsc.2 hp)
  -- every state no farther than the popped node's depth is already explored
  have nivel_ate : ∀ s d, AlcEm D inicio s d → d ≤ n.prof → D.chave s ∈ ex := by
    intro s d hd hle
    rcases Nat.lt_or_ge d n.prof with hlt | hge
    · exact inv.nivel s d hd (by simp) hlt
    · have hdn : d = n.prof := by omega
      cases hd with
      | inicial => exact inv.inicioEx
      | passo hprev hmem' =>
        rename_i t a d'
        have hd' : d' < n.prof := by omega
        have htex : D.chave t ∈ ex := inv.nivel t d' hprev (by simp) hd'
        rcases inv.expf t ⟨d', hprev⟩ htex with ⟨n', hn', hest⟩ | ⟨-, hch⟩
        · rcases List.mem_cons.1 hn' with hn'' | hn''
          · rw [hn''] at hest
            have := inv.dopt n (List.mem_cons_self _ _) d' (hest ▸ hprev)
            omega
          · have h1 := inv.dopt n' (List.mem_cons_of_mem _ hn'') d' (hest ▸ hprev)
            have h2 := (hpcab n' hn'').1
            omega
        · exact hch (s, a) hmem'
  refine ⟨?_, ?_, ?_, ?_, ?_, ?_, ?_⟩
  · intro m hm
    rcases List.mem_append.1 hm with hm' | hm'
    · exact inv.valida m (List.mem_cons_of_mem _ hm')
    · exact hvnovos m hm'
  · refine List.pairwise_append.2 ⟨hpresto, ?_, ?_⟩
    · refine pairwise_de_todos ?_
      intro a ha b hb
      rw [(hprofpai a ha).1, (hprofpai b hb).1]
      omega
    · intro a ha b hb
      have h1 := hpcab a ha
      have h2 := (hprofpai b hb).1
      omega
  · exact gerarFilhos_ex_mono D n _ ex inv.inicioEx
  · intro k hk
    rcases (gerarFilhos_mem_ex D n _ ex).1 hk with ⟨m, hm, hkm⟩ | hk'
    · exact ⟨m.estado, (hvnovos m hm).alcancavel, hkm⟩
    · exact inv.exAlc k hk'
  · intro m hm d hd
    rcases List.mem_append.1 hm with hm' | hm'
    · exact inv.dopt m (List.mem_cons_of_mem _ hm') d hd
    · obtain ⟨hprof, -, hnin⟩ := hprofpai m hm'
      rw [hprof]
      by_contra hcon
      exact hnin (nivel_ate m.estado d hd (by omega))
  · intro s hs hks
    rcases (gerarFilhos_mem_ex D n _ ex).1 hks with ⟨m, hm, hkm⟩ | hk'
    · have hsm : s = m.estado := hinj s m.estado hs (hvnovos m hm).alcancavel hkm.symm
      subst hsm
      exact Or.inl ⟨m, List.mem_append_right _ hm, rfl⟩
    · rcases inv.expf s hs hk' with ⟨n', hn', hest⟩ | ⟨ho, hch⟩
      · rcases List.mem_cons.1 hn' with hn'' | hn''
        · subst hn''
          subst hest
          exact Or.inr ⟨hobj, fun p hp => hcompleto p hp⟩
        · exact Or.inl ⟨n', List.mem_append_left _ hn'', hest⟩
      · exact Or.inr ⟨ho, fun p hp => gerarFilhos_ex_mono D n _ ex (hch p hp)⟩
  · intro s d hd hne' hlt
    have hcab : ((resto ++ (gerarFilhos D n (ordenaAsc (D.acoes n.estado)) ex).1).head hne').prof
        ≤ n.prof + 1 := by
      have hmemcab := List.head_mem hne'
      rcases List.mem_append.1 hmemcab with hm' | hm'
      · exact (hpcab _ hm').2
      · exact le_of_eq (hprofpai _ hm').1
    exact gerarFilhos_ex_mono D n _ ex (nivel_ate s d hd (by omega))

/-- Any successful breadth-first run from an invariant-satisfying
configuration returns a goal node of minimal depth. -/
theorem lacoLargura_otimo {σ : Type} (D : Dominio σ) (inicio : σ)
    (hinj : ∀ s t, Alcancavel D inicio s → Alcancavel D inicio t →
      D.chave s = D.chave t → s = t) :
    ∀ (fuel : Nat) (borda : List (Nodo σ)) (ex : List String) (c : List (Nodo σ)),
      InvariantePorNiveis D inicio borda ex →
      (lacoLargura D fuel borda ex).resultado = .caminho c →
      ∃ n, NodoValido D inicio n ∧ D.objetivo n.estado = true ∧ c = n.caminho_ ∧
        ∀ g d, D.objetivo g = true → AlcEm D inicio g d → n.prof ≤ d := by
  intro fuel
  induction fuel with
  | zero => intro borda ex c _ hr; simp [lacoLargura] at hr
  | succ fuel ih =>
    intro borda ex c inv hr
    cases borda with
    | nil => simp [lacoLargura] at hr
    | cons n resto =>
      by_cases h : D.objetivo n.estado
      · simp only [lacoLargura, h, if_true] at hr
        cases hr
        refine ⟨n, inv.valida n (List.mem_cons_self _ _), h, rfl, ?_⟩
        intro g d hg hd
        by_contra hcon
        have hdlt : d < n.prof := by
          have : (((n :: resto).head (by simp)) : Nodo σ) = n := rfl
          omega
        have hkg : D.chave g ∈ ex := inv.nivel g d hd (by simp) hdlt
        rcases inv.expf g ⟨d, hd⟩ hkg with ⟨n', hn', hest⟩ | ⟨ho, -⟩
        · have h1 := inv.dopt n' hn' d (hest ▸ hd)
          rcases List.mem_cons.1 hn' with he | hm
          · rw [he] at h1
            omega
          · have h2 := ((List.pairwise_cons.1 inv.pares).1 n' hm).1
            omega
        · rw [ho] at hg
          exact Bool.false_ne_true hg
      · simp only [lacoLargura, h, Bool.false_eq_true, if_false] at hr
        exact ih _ _ c (invariante_passo hinj inv (by simpa using h)) hr

/-- C1: when breadth-first search returns a path, its number of actions (the
path length minus the sentinel root) is attained by some goal and is minimal
over all action sequences from the start to any goal. -/
theorem C1_largura_otima {σ : Type} (D : Dominio σ) (inicio : σ) (fuel : Nat)
    (c : List (Nodo σ))
    (hinj : ∀ s t, Alcancavel D inicio s → Alcancavel D inicio t →
      D.chave s = D.chave t → s = t)
    (h : (buscar D inicio "largura" fuel).resultado = .caminho c) :
    ∃ k, c.length = k + 1
      ∧ (∃ g, D.objetivo g = true ∧ AlcEm D inicio g k)
      ∧ ∀ g d, D.objetivo g = true → AlcEm D inicio g d → k ≤ d := by
  rw [buscar_eq_largura] at h
  dsimp only at h
  have inv0 : InvariantePorNiveis D inicio [Nodo.mk inicio none "Z"] [D.chave inicio] := by
    refine ⟨?_, ?_, ?_, ?_, ?_, ?_, ?_⟩
    · intro m hm
      simp at hm
      subst hm
      exact NodoValido.raiz
    · simp
    · simp
    · intro k hk
      simp at hk
      subst hk
      exact ⟨inicio, ⟨0, AlcEm.inicial⟩, rfl⟩
    · intro m hm d hd
      simp at hm
      subst hm
      exact Nat.zero_le d
    · intro s hs hk
      simp at hk
      have hse := hinj s inicio hs ⟨0, AlcEm.inicial⟩ hk
      subst hse
      exact Or.inl ⟨Nodo.mk s none "Z", by simp⟩
    · intro s d hd hne hlt
      have hz : (([Nodo.mk inicio none "Z"] : List (Nodo σ)).head hne).prof = 0 := rfl
      omega
  obtain ⟨n, hv, ho, hc, hmin⟩ := lacoLargura_otimo D inicio hinj fuel _ _ c inv0 h
  refine ⟨n.prof, ?_, ⟨n.estado, ho, hv.alcEm⟩, hmin⟩
  rw [hc]
  exact n.caminho_length

/-- A four-state fork: `0 → 1 → 2` and `0 → 3`, with goals `2` and `3`; the
nearest goal is one action away. -/
def domGarfo : Dominio (Fin 4) where
  objetivo := fun s => s == 2 || s == 3
  acoes := fun s =>
    if s = 0 then [((1 : Fin 4), "a"), ((3 : Fin 4), "b")]
    else if s = 1 then [((2 : Fin 4), "a")] else []
  chave := fun s => toString s.val

/-- C1 witness: on the fork, breadth-first search returns the two-node path
to goal `3`, whose single action is minimal over all goal paths. -/
theorem C1_testemunha :
    ∃ k, ([Nodo.mk (0 : Fin 4) none "Z",
           Nodo.mk 3 (some (Nodo.mk 0 none "Z")) "b"] : List (Nodo (Fin 4))).length = k + 1
      ∧ (∃ g, domGarfo.objetivo g = true ∧ AlcEm domGarfo 0 g k)
      ∧ ∀ g d, domGarfo.objetivo g = true → AlcEm domGarfo 0 g d → k ≤ d :=
  C1_largura_otima domGarfo 0 5 _
    (fun s t _ _ hk =>
      (by decide : ∀ u v : Fin 4, domGarfo.chave u = domGarfo.chave v → u = v) s t hk)
    rfl
